import Mathlib

/-!
Verification of the subsetFasta repository: a FASTA archive indexer
(`subsetFasta/submodules/fasta/fasta.py`) and the subsetting driver
(`subsetFasta/main.py`).  Strings are modelled as `List Char`; the regular
expression `>[st][rp]\|(\w+)\|(.*)\n([A-Za-z\s]*)` that drives the scan is
embedded as an explicit deterministic matcher (each of its pieces is
greedy-without-backtracking, so maximal-munch is exact).
-/

namespace SubsetFasta

/-- Python `\s` on the characters relevant here (ASCII whitespace). -/
def isSpace (c : Char) : Bool :=
  c = ' ' || c = '\t' || c = '\n' || c = '\r' || c = '\x0b' || c = '\x0c'

/-- Python `\w` (ASCII): letters, digits, underscore. -/
def isWordChar (c : Char) : Bool :=
  c.isAlpha || c.isDigit || c = '_'

/-- A character matched by the sequence-body class `[A-Za-z\s]`. -/
def isSeqChar (c : Char) : Bool :=
  c.isAlpha || isSpace c

/-- The archive-type tag class `[st][rp]` of `FastaFile.entry_re`. -/
def validTag (t1 t2 : Char) : Bool :=
  (t1 = 's' || t1 = 't') && (t2 = 'r' || t2 = 'p')

/-- `re.sub(r'\s', '', s)`: remove every whitespace character. -/
def stripWs (s : List Char) : List Char :=
  s.filter (fun c => !(isSpace c))

/-- One successful match of `FastaFile.entry_re`: the two tag characters, the
captured accession (group 1), description (group 2) and raw sequence body
(group 3). -/
structure EMatch where
  t1 : Char
  t2 : Char
  acc : List Char
  desc : List Char
  seq : List Char
deriving DecidableEq

/-- Length of the matched text: `>` + tag (2) + `|` + accession + `|` +
description + newline + sequence body. -/
def EMatch.len (m : EMatch) : Nat :=
  m.acc.length + m.desc.length + m.seq.length + 6

/-- The exact text spanned by the match. -/
def EMatch.text (m : EMatch) : List Char :=
  '>' :: m.t1 :: m.t2 :: '|' :: (m.acc ++ '|' :: (m.desc ++ '\n' :: m.seq))

/-- Attempt to match `entry_re` anchored at the head of `s`, mirroring the
regex `>[st][rp]\|(\w+)\|(.*)\n([A-Za-z\s]*)`; the trailing optional
lookahead `(?=[>])?` never affects the span or the groups. -/
def matchEntryAt (s : List Char) : Option EMatch :=
  match s with
  | c0 :: t1 :: t2 :: c3 :: rest =>
    if c0 = '>' && c3 = '|' && validTag t1 t2 then
      let acc := rest.takeWhile isWordChar
      if acc.isEmpty then none
      else
        match rest.dropWhile isWordChar with
        | c4 :: rest2 =>
          if c4 = '|' then
            let desc := rest2.takeWhile (fun c => c != '\n')
            match rest2.dropWhile (fun c => c != '\n') with
            | _ :: rest3 => some ⟨t1, t2, acc, desc, rest3.takeWhile isSeqChar⟩
            | [] => none
          else none
        | [] => none
    else none
  | _ => none

/-- `re.finditer` over the buffer, fuel-structured for executability: at each
position try the anchored matcher; on success record the match and resume at
its end, otherwise advance one character.  `pos` is the absolute offset of the
current suffix. -/
def scanFromFuel : Nat → List Char → Nat → List (List Char × Nat × Nat)
  | 0, _, _ => []
  | _ + 1, [], _ => []
  | fuel + 1, s@(_ :: rest), pos =>
    match matchEntryAt s with
    | some m => (m.acc, pos, pos + m.len) :: scanFromFuel fuel (s.drop m.len) (pos + m.len)
    | none => scanFromFuel fuel rest (pos + 1)

/-- All matches of `entry_re` in the buffer with their spans
(`FastaFile._find_offsets` scan). -/
def scanFrom (s : List Char) (pos : Nat) : List (List Char × Nat × Nat) :=
  scanFromFuel s.length s pos

/-- Entry spans, as stored in `FastaFile._id_offsets`. -/
abbrev Span := Nat × Nat

/-- The offset table: a Python dict, i.e. an association list in insertion
order with at most one binding per key. -/
abbrev Dict := List (List Char × Span)

/-- `d[k] = v` on a Python dict: overwrite in place if the key is present
(keeping its position), otherwise append. -/
def dictInsert (d : Dict) (k : List Char) (v : Span) : Dict :=
  if d.any (fun p => p.1 = k) then
    d.map (fun p => if p.1 = k then (k, v) else p)
  else d ++ [(k, v)]

/-- `d.get(k)`: the value bound to `k`, if any. -/
def dictFind (d : Dict) (k : List Char) : Option Span :=
  (d.find? (fun p => p.1 = k)).map Prod.snd

/-- `d.keys()` in insertion order. -/
def dictKeys (d : Dict) : List (List Char) :=
  d.map Prod.fst

/-- Errors the Python code can raise. -/
inductive Err where
  | keyError : List Char → Err
  | assertionError : Err
  | valueError : Err
deriving DecidableEq

/-- Result of a Python call: a value or a raised exception. -/
inductive PyResult (α : Type) where
  | ok : α → PyResult α
  | error : Err → PyResult α
deriving DecidableEq

/-- Whether a call returned normally. -/
def PyResult.isOk : PyResult α → Bool
  | .ok _ => true
  | .error _ => false

/-- The `FastaFile` container: the text buffer `_fbuff` and the offset table
`_id_offsets`. -/
structure FastaFile where
  fbuff : List Char
  id_offsets : Dict
deriving DecidableEq

/-- `FastaFile.read`: store the file contents and populate the offset table by
the single scan `_find_offsets` (`self._id_offsets[m.group(1)] = m.span()`). -/
def FastaFile.read (contents : List Char) : FastaFile :=
  { fbuff := contents
    id_offsets := (scanFrom contents 0).foldl (fun d p => dictInsert d p.1 p.2) [] }

/-- `FastaFile.id_exists` / `__contains__`: membership in the offset table. -/
def FastaFile.id_exists (f : FastaFile) (accession : List Char) : Bool :=
  f.id_offsets.any (fun p => p.1 = accession)

/-- `FastaFile.iter_ids`: enumerated accessions in table (scan) order. -/
def FastaFile.iter_ids (f : FastaFile) : List (Nat × List Char) :=
  (dictKeys f.id_offsets).enum

/-- `FastaFile._get_offset`: `KeyError` when the accession is absent, else the
stored span.  (The `none` fallback models the dict subscript and is
unreachable once `id_exists` holds.) -/
def FastaFile.get_offset (f : FastaFile) (accession : List Char) : PyResult Span :=
  if f.id_exists accession then
    match dictFind f.id_offsets accession with
    | some sp => .ok sp
    | none => .error (.keyError accession)
  else .error (.keyError accession)

/-- `re.search`: the leftmost match of `entry_re` in `s`. -/
def searchEntry : List Char → Option EMatch
  | [] => none
  | s@(_ :: rest) =>
    match matchEntryAt s with
    | some m => some m
    | none => searchEntry rest

/-- Python slice `s[b:e]` for natural bounds. -/
def pySlice (s : List Char) (b e : Nat) : List Char :=
  (s.take e).drop b

/-- `FastaFile._get_entry`: re-match the pattern on the stored slice, assert a
match was found with the requested accession, and return the description and
the whitespace-stripped sequence. -/
def FastaFile.get_entry_at (f : FastaFile) (accession : List Char) (b e : Nat) :
    PyResult (List Char × List Char) :=
  match searchEntry (pySlice f.fbuff b e) with
  | none => .error .assertionError
  | some m =>
    if m.acc = accession then .ok (m.desc, stripWs m.seq)
    else .error .assertionError

/-- `FastaFile.get_entry`: look up the span, then extract. -/
def FastaFile.get_entry (f : FastaFile) (accession : List Char) :
    PyResult (List Char × List Char) :=
  match f.get_offset accession with
  | .ok off => f.get_entry_at accession off.1 off.2
  | .error e => .error e

/-- `FastaFile.get_sequence`: second component of `get_entry`. -/
def FastaFile.get_sequence (f : FastaFile) (accession : List Char) :
    PyResult (List Char) :=
  match f.get_entry accession with
  | .ok ds => .ok ds.2
  | .error e => .error e

/-- The chunking loop of `format_sequence`, fuel-structured: for width
`w ≥ 1`, fuel `s.length` suffices and chunk `i` is `s[i*w : i*w + w]`. -/
def chunksFuel : Nat → Nat → List Char → List (List Char)
  | 0, _, _ => []
  | _ + 1, _, [] => []
  | fuel + 1, w, s@(_ :: _) => s.take w :: chunksFuel fuel w (s.drop w)

/-- The list of fixed-width slices `seq_f[index : index + w]` taken by the
`range(0, len(seq_f), w)` loop of `format_sequence` (for `w ≥ 1`). -/
def chunks (w : Nat) (s : List Char) : List (List Char) :=
  chunksFuel s.length w s

/-- The accumulation `ret = chunk0; ret += '\n' + chunk` of the
`format_sequence` loop: pieces joined by single line breaks. -/
def joinNl : List (List Char) → List Char
  | [] => []
  | [c] => c
  | c :: c2 :: cs => c ++ '\n' :: joinNl (c2 :: cs)

/-- `format_sequence(seq, max_line_len)`: strip whitespace; with no width
return the stripped sequence; width `0` raises `ValueError` (zero `range`
step); a negative width gives an empty `range`, returning the empty string;
a positive width folds into fixed-size lines. -/
def format_sequence (seq : List Char) : Option Int → PyResult (List Char)
  | none => .ok (stripWs seq)
  | some w =>
    if w = 0 then .error .valueError
    else if w < 0 then .ok []
    else .ok (joinNl (chunks w.toNat (stripWs seq)))

/-- Split a string at `'\n'` into its lines (`str.split('\n')`): used to state
line-length properties of formatted output. -/
def linesOf : List Char → List (List Char)
  | [] => [[]]
  | c :: rest =>
    if c = '\n' then [] :: linesOf rest
    else
      match linesOf rest with
      | [] => [[c]]
      | l :: ls => (c :: l) :: ls

/-- Invariants every successful match of the pattern satisfies (character
classes of the captured groups and validity of the tag). -/
def EMatch.ok (m : EMatch) : Prop :=
  validTag m.t1 m.t2 = true ∧ m.acc ≠ [] ∧ (∀ c ∈ m.acc, isWordChar c = true) ∧
    (∀ c ∈ m.desc, c ≠ '\n') ∧ (∀ c ∈ m.seq, isSeqChar c = true)

/-- A character allowed inside one sequence line: a letter or non-newline
whitespace. -/
def isSeqLineChar (c : Char) : Bool :=
  c.isAlpha || (isSpace c && !(c = '\n'))

/-- A FASTA record as written in an archive: a header line made of a
two-character tag, an accession and a description, followed by
newline-terminated sequence lines. -/
structure Record where
  t1 : Char
  t2 : Char
  acc : List Char
  desc : List Char
  seqLines : List (List Char)
deriving DecidableEq

/-- A well-formed record in the sense of the indexer: valid tag, nonempty
accession of identifier (word) characters, newline-free description, and
sequence lines of letters and non-newline whitespace. -/
def Record.wf (r : Record) : Prop :=
  validTag r.t1 r.t2 = true ∧ r.acc ≠ [] ∧ (∀ c ∈ r.acc, isWordChar c = true) ∧
    (∀ c ∈ r.desc, c ≠ '\n') ∧ (∀ l ∈ r.seqLines, ∀ c ∈ l, isSeqLineChar c = true)

/-- A syntactic candidate record whose tag or accession may be invalid: the
tag characters are arbitrary non-`>` characters, the accession is a nonempty
token of non-whitespace characters other than the delimiters `|` and `>`, the
description is free of newlines and `>`, and the sequence lines are letters
and non-newline whitespace. -/
def Record.cand (r : Record) : Prop :=
  r.t1 ≠ '>' ∧ r.t2 ≠ '>' ∧ r.acc ≠ [] ∧
    (∀ c ∈ r.acc, isSpace c = false ∧ c ≠ '|' ∧ c ≠ '>') ∧
    (∀ c ∈ r.desc, c ≠ '\n' ∧ c ≠ '>') ∧
    (∀ l ∈ r.seqLines, ∀ c ∈ l, isSeqLineChar c = true)

/-- Whether the header would be accepted by the pattern: recognized tag and
all-word-character accession. -/
def Record.goodB (r : Record) : Bool :=
  validTag r.t1 r.t2 && r.acc.all isWordChar

/-- The raw sequence body of a record: its lines, each newline-terminated. -/
def Record.seqText (r : Record) : List Char :=
  (r.seqLines.map (fun l => l ++ ['\n'])).flatten

/-- The match that scanning this record should produce. -/
def Record.toMatch (r : Record) : EMatch :=
  ⟨r.t1, r.t2, r.acc, r.desc, r.seqText⟩

/-- The record's literal text in the archive. -/
def Record.render (r : Record) : List Char :=
  r.toMatch.text

/-- An archive buffer: the concatenation of its records' texts. -/
def renderArchive (rs : List Record) : List Char :=
  (rs.map Record.render).flatten

/-- The spans the scan should produce for consecutive records starting at
offset `pos`. -/
def recSpans : List Record → Nat → List (List Char × Nat × Nat)
  | [], _ => []
  | r :: rest, pos => (r.acc, pos, pos + r.render.length) :: recSpans rest (pos + r.render.length)

/-- The `seen_ids` / `unique_select_ids` loop of `main`: keep the first
occurrence of each id.  (`main` computes this and then ignores it.) -/
def uniqueSelectIdsAux (seen uniq : List (List Char)) :
    List (List Char) → List (List Char)
  | [] => uniq
  | pid :: rest =>
    if seen.contains pid then uniqueSelectIdsAux (pid :: seen) uniq rest
    else uniqueSelectIdsAux (pid :: seen) (uniq ++ [pid]) rest

/-- `unique_select_ids` as computed by `main` from `select_ids`. -/
def uniqueSelectIds (select_ids : List (List Char)) : List (List Char) :=
  uniqueSelectIdsAux [] [] select_ids

/-- `writeEntries`: for each entry unpack `accession, db, description, seq`
(a tuple of any other arity raises `ValueError`) and emit
`>db|accession|description` then the sequence, wrapped at width 60 when
`multi_line` is set, each line newline-terminated. -/
def writeEntries : List (List (List Char)) → Bool → PyResult (List Char)
  | [], _ => .ok []
  | e :: rest, multi_line =>
    match e with
    | [accession, db, description, seq] =>
      match (if multi_line then format_sequence seq (some 60) else .ok seq) with
      | .ok body =>
        match writeEntries rest multi_line with
        | .ok out =>
          .ok ('>' :: (db ++ '|' :: (accession ++ '|' :: (description ++ '\n' :: (body ++ '\n' :: out)))))
        | .error err => .error err
      | .error err => .error err
    | _ => .error .valueError

/-- The entry list built by `main`:
`[(protein_id, *fasta.get_entry(protein_id)) for protein_id in select_ids]` —
note it iterates over `select_ids`, not `unique_select_ids`, and produces
three-element tuples. -/
def mainEntries (f : FastaFile) : List (List Char) → PyResult (List (List (List Char)))
  | [] => .ok []
  | pid :: rest =>
    match f.get_entry pid with
    | .ok ds =>
      match mainEntries f rest with
      | .ok es => .ok ([pid, ds.1, ds.2] :: es)
      | .error e => .error e
    | .error e => .error e

/-- The write phase of `main`: build the entries then pass them to
`writeEntries`. -/
def mainWrite (f : FastaFile) (select_ids : List (List Char)) (multi_line : Bool) :
    PyResult (List Char) :=
  match mainEntries f select_ids with
  | .ok es => writeEntries es multi_line
  | .error e => .error e

/-- The text written for one indexed entry in the round-trip: header
`>sp|accession|description` followed by the (optionally wrapped) sequence,
newline-terminated — as in `test_read_formated_sequences`. -/
def entryRecordText (f : FastaFile) (w : Option Int) (p : List Char × Span) : List Char :=
  match f.get_entry_at p.1 p.2.1 p.2.2 with
  | .ok (desc, seqS) =>
    match format_sequence seqS w with
    | .ok fmtd => '>' :: 's' :: 'p' :: '|' :: (p.1 ++ '|' :: (desc ++ '\n' :: (fmtd ++ ['\n'])))
    | .error _ => []
  | .error _ => []

/-- The whole rewritten archive: every indexed entry, in scan order. -/
def rewriteBuffer (f : FastaFile) (w : Option Int) : List Char :=
  (f.id_offsets.map (entryRecordText f w)).flatten

/-- The sequence lines the formatted output consists of. -/
def fmtLines (seqS : List Char) : Option Int → List (List Char)
  | none => [seqS]
  | some w =>
    match chunks w.toNat (stripWs seqS) with
    | [] => [[]]
    | c :: cs => c :: cs

/-- The rewritten entry, viewed as a `Record` (used to re-run the scan
theorems on the rewritten buffer). -/
def recordOfEntry (f : FastaFile) (w : Option Int) (p : List Char × Span) : Record :=
  match f.get_entry_at p.1 p.2.1 p.2.2 with
  | .ok (desc, seqS) => ⟨'s', 'p', p.1, desc, fmtLines seqS w⟩
  | .error _ => ⟨'s', 'p', p.1, [], [[]]⟩

/-- Decidability of record well-formedness (used to check concrete inputs). -/
instance (r : Record) : Decidable r.wf := by
  unfold Record.wf
  infer_instance

/-- Decidability of candidate-record shape (used to check concrete inputs). -/
instance (r : Record) : Decidable r.cand := by
  unfold Record.cand
  infer_instance

/-- Decidability of match invariants (used to check concrete inputs). -/
instance (m : EMatch) : Decidable m.ok := by
  unfold EMatch.ok
  infer_instance

end SubsetFasta

namespace SubsetFasta

/-! ### Generic list helpers -/

theorem takeWhile_stop {p : Char → Bool} (l : List Char) (c : Char) (l' : List Char)
    (hl : ∀ x ∈ l, p x = true) (hc : p c = false) :
    (l ++ c :: l').takeWhile p = l := by
  rw [List.takeWhile_append_of_pos hl, List.takeWhile_cons_of_neg (by simp [hc])]
  simp

theorem dropWhile_stop {p : Char → Bool} (l : List Char) (c : Char) (l' : List Char)
    (hl : ∀ x ∈ l, p x = true) (hc : p c = false) :
    (l ++ c :: l').dropWhile p = c :: l' := by
  rw [List.dropWhile_append_of_pos hl, List.dropWhile_cons_of_neg (by simp [hc])]

theorem dropWhile_head_false (p : Char → Bool) (l : List Char) (c : Char) (t : List Char)
    (h : l.dropWhile p = c :: t) : p c = false := by
  induction l with
  | nil => simp at h
  | cons a l' ih =>
    by_cases hp : p a
    · rw [List.dropWhile_cons_of_pos hp] at h
      exact ih h
    · rw [List.dropWhile_cons_of_neg hp] at h
      cases h
      simpa using hp

theorem takeWhile_dropWhile_nil (p : Char → Bool) (l : List Char) :
    (l.dropWhile p).takeWhile p = [] := by
  cases hd : l.dropWhile p with
  | nil => rfl
  | cons c t =>
    have hc : p c = false := dropWhile_head_false p l c t hd
    rw [List.takeWhile_cons_of_neg (by simp [hc])]

/-! ### The anchored matcher -/

theorem EMatch.text_length (m : EMatch) : m.text.length = m.len := by
  simp [EMatch.text, EMatch.len]
  omega

theorem matchEntryAt_nil : matchEntryAt [] = none := rfl

theorem matchEntryAt_not_gt (c : Char) (s : List Char) (h : c ≠ '>') :
    matchEntryAt (c :: s) = none := by
  rcases s with _ | ⟨a, _ | ⟨b, _ | ⟨d, t⟩⟩⟩ <;> simp [matchEntryAt, h]

theorem matchEntryAt_text (m : EMatch) (hm : m.ok) (rest : List Char) :
    matchEntryAt (m.text ++ rest) =
      some ⟨m.t1, m.t2, m.acc, m.desc, m.seq ++ rest.takeWhile isSeqChar⟩ := by
  obtain ⟨htag, hne, hacc, hdesc, hseq⟩ := hm
  have hshape : m.text ++ rest =
      '>' :: m.t1 :: m.t2 :: '|' :: (m.acc ++ '|' :: (m.desc ++ '\n' :: (m.seq ++ rest))) := by
    simp [EMatch.text]
  rw [hshape, matchEntryAt]
  have hAcc : (m.acc ++ '|' :: (m.desc ++ '\n' :: (m.seq ++ rest))).takeWhile isWordChar
      = m.acc := takeWhile_stop _ _ _ hacc (by decide)
  have hAccD : (m.acc ++ '|' :: (m.desc ++ '\n' :: (m.seq ++ rest))).dropWhile isWordChar
      = '|' :: (m.desc ++ '\n' :: (m.seq ++ rest)) := dropWhile_stop _ _ _ hacc (by decide)
  have hdesc' : ∀ c ∈ m.desc, (c != '\n') = true := by
    intro c hc
    simpa using hdesc c hc
  have hDesc : (m.desc ++ '\n' :: (m.seq ++ rest)).takeWhile (fun c => c != '\n')
      = m.desc := takeWhile_stop _ _ _ hdesc' (by decide)
  have hDescD : (m.desc ++ '\n' :: (m.seq ++ rest)).dropWhile (fun c => c != '\n')
      = '\n' :: (m.seq ++ rest) := dropWhile_stop _ _ _ hdesc' (by decide)
  have hSeq : (m.seq ++ rest).takeWhile isSeqChar = m.seq ++ rest.takeWhile isSeqChar :=
    List.takeWhile_append_of_pos hseq
  simp [htag, hAcc, hAccD, hDesc, hDescD, hSeq, List.isEmpty_iff, hne]

theorem matchEntryAt_some (s : List Char) (m : EMatch) (h : matchEntryAt s = some m) :
    m.ok ∧ s = m.text ++ s.drop m.len ∧ (s.drop m.len).takeWhile isSeqChar = [] := by
  rcases s with _ | ⟨c0, _ | ⟨t1, _ | ⟨t2, _ | ⟨c3, rest⟩⟩⟩⟩
  · exact absurd h (by simp [matchEntryAt])
  · exact absurd h (by simp [matchEntryAt])
  · exact absurd h (by simp [matchEntryAt])
  · exact absurd h (by simp [matchEntryAt])
  simp only [matchEntryAt] at h
  split at h
  case isFalse => exact absurd h (by simp)
  case isTrue hcond =>
    rw [Bool.and_eq_true, Bool.and_eq_true] at hcond
    obtain ⟨⟨hc0, hc3⟩, htag⟩ := hcond
    rw [decide_eq_true_eq] at hc0 hc3
    subst hc0
    subst hc3
    split at h
    case isTrue => exact absurd h (by simp)
    case isFalse hEmp =>
      split at h
      case h_2 => exact absurd h (by simp)
      case h_1 c4 rest2 heq =>
        split at h
        case isFalse => exact absurd h (by simp)
        case isTrue hc4 =>
          subst hc4
          split at h
          case h_2 => exact absurd h (by simp)
          case h_1 c5 rest3 heq2 =>
            obtain rfl := (Option.some.inj h).symm
            have hc5 : c5 = '\n' := by
              have hw := dropWhile_head_false (fun c => c != '\n') rest2 c5 rest3 heq2
              simpa using hw
            subst hc5
            have hrest : rest = rest.takeWhile isWordChar ++ '|' :: rest2 := by
              conv_lhs => rw [← List.takeWhile_append_dropWhile (p := isWordChar) (l := rest)]
              rw [heq]
            have hrest2 : rest2 = rest2.takeWhile (fun c => c != '\n') ++ '\n' :: rest3 := by
              conv_lhs =>
                rw [← List.takeWhile_append_dropWhile (p := fun c => c != '\n') (l := rest2)]
              rw [heq2]
            have hrest3 : rest3 = rest3.takeWhile isSeqChar ++ rest3.dropWhile isSeqChar :=
              (List.takeWhile_append_dropWhile _ _).symm
            have key : '>' :: t1 :: t2 :: '|' :: rest
                = EMatch.text ⟨t1, t2, rest.takeWhile isWordChar,
                    rest2.takeWhile (fun c => c != '\n'), rest3.takeWhile isSeqChar⟩
                  ++ rest3.dropWhile isSeqChar := by
              simp only [EMatch.text]
              conv_lhs => rw [hrest, hrest2, hrest3]
              simp
            have hdrop : ('>' :: t1 :: t2 :: '|' :: rest).drop
                (EMatch.len ⟨t1, t2, rest.takeWhile isWordChar,
                  rest2.takeWhile (fun c => c != '\n'), rest3.takeWhile isSeqChar⟩)
                = rest3.dropWhile isSeqChar := by
              rw [key]
              exact List.drop_left' (EMatch.text_length _)
            refine ⟨⟨htag, ?_, ?_, ?_, ?_⟩, ?_, ?_⟩
            · simpa [List.isEmpty_iff] using hEmp
            · intro c hc
              exact List.mem_takeWhile_imp hc
            · intro c hc
              simpa using List.mem_takeWhile_imp hc
            · intro c hc
              exact List.mem_takeWhile_imp hc
            · rw [hdrop]
              exact key
            · rw [hdrop]
              exact takeWhile_dropWhile_nil _ _

theorem matchEntryAt_text_nil (m : EMatch) (hm : m.ok) : matchEntryAt m.text = some m := by
  have h := matchEntryAt_text m hm []
  simpa using h

/-! ### The scan -/

theorem EMatch.len_pos (m : EMatch) : 0 < m.len := by
  simp only [EMatch.len]
  omega

theorem scanFromFuel_nil (fuel pos : Nat) : scanFromFuel fuel [] pos = [] := by
  cases fuel <;> rfl

theorem scanFromFuel_mono (fuel1 : Nat) : ∀ (fuel2 : Nat) (s : List Char) (pos : Nat),
    s.length ≤ fuel1 → s.length ≤ fuel2 →
    scanFromFuel fuel1 s pos = scanFromFuel fuel2 s pos := by
  induction fuel1 with
  | zero =>
    intro fuel2 s pos h1 _
    have hs : s = [] := List.length_eq_zero.mp (Nat.le_zero.mp h1)
    subst hs
    rw [scanFromFuel_nil, scanFromFuel_nil]
  | succ f1 ih =>
    intro fuel2 s pos h1 h2
    cases s with
    | nil => rw [scanFromFuel_nil, scanFromFuel_nil]
    | cons c rest =>
      cases fuel2 with
      | zero => simp at h2
      | succ f2 =>
        rw [scanFromFuel, scanFromFuel]
        cases hm : matchEntryAt (c :: rest) with
        | some m =>
          dsimp only
          have hp := m.len_pos
          have hlen : ((c :: rest).drop m.len).length = rest.length + 1 - m.len := by
            simp
          congr 1
          apply ih
          · rw [hlen]
            simp at h1
            omega
          · rw [hlen]
            simp at h2
            omega
        | none =>
          dsimp only
          apply ih
          · simp at h1
            omega
          · simp at h2
            omega

theorem scanFrom_nil (pos : Nat) : scanFrom [] pos = [] := rfl

theorem scanFrom_cons (c : Char) (rest : List Char) (pos : Nat) :
    scanFrom (c :: rest) pos =
      match matchEntryAt (c :: rest) with
      | some m => (m.acc, pos, pos + m.len) :: scanFrom ((c :: rest).drop m.len) (pos + m.len)
      | none => scanFrom rest (pos + 1) := by
  show scanFromFuel (rest.length + 1) (c :: rest) pos = _
  rw [scanFromFuel]
  cases hm : matchEntryAt (c :: rest) with
  | some m =>
    dsimp only
    have hp := m.len_pos
    congr 1
    apply scanFromFuel_mono
    · simp
      omega
    · exact le_refl _
  | none =>
    dsimp only
    exact scanFromFuel_mono _ _ _ _ (by simp) (le_refl _)

theorem scanFromFuel_mem (fuel : Nat) : ∀ (s : List Char) (pos : Nat)
    (acc : List Char) (b e : Nat), (acc, b, e) ∈ scanFromFuel fuel s pos →
    ∃ m : EMatch, m.ok ∧ m.acc = acc ∧ pos ≤ b ∧ e = b + m.len ∧
      s.drop (b - pos) = m.text ++ (s.drop (b - pos)).drop m.len := by
  induction fuel with
  | zero =>
    intro s pos acc b e h
    simp [scanFromFuel] at h
  | succ f ih =>
    intro s pos acc b e h
    cases s with
    | nil => simp [scanFromFuel_nil] at h
    | cons c rest =>
      rw [scanFromFuel] at h
      cases hm : matchEntryAt (c :: rest) with
      | some m0 =>
        rw [hm] at h
        dsimp only at h
        rcases List.mem_cons.mp h with h1 | h2
        · have h1' : acc = m0.acc ∧ b = pos ∧ e = pos + m0.len := by
            simpa [Prod.ext_iff] using h1
          obtain ⟨ha, hb, he⟩ := h1'
          subst ha
          subst hb
          subst he
          obtain ⟨hok, htext, _⟩ := matchEntryAt_some _ _ hm
          refine ⟨m0, hok, rfl, le_refl _, rfl, ?_⟩
          simpa [Nat.sub_self] using htext
        · obtain ⟨m, hok, hacc, hpos, he, htext⟩ := ih _ _ _ _ _ h2
          refine ⟨m, hok, hacc, by omega, he, ?_⟩
          have hsplit : (c :: rest).drop (b - pos)
              = ((c :: rest).drop m0.len).drop (b - (pos + m0.len)) := by
            rw [List.drop_drop]
            congr 1
            omega
          rw [hsplit]
          exact htext
      | none =>
        rw [hm] at h
        dsimp only at h
        obtain ⟨m, hok, hacc, hpos, he, htext⟩ := ih _ _ _ _ _ h
        refine ⟨m, hok, hacc, by omega, he, ?_⟩
        have hsplit : (c :: rest).drop (b - pos) = rest.drop (b - (pos + 1)) := by
          rw [show b - pos = (b - (pos + 1)) + 1 by omega]
          exact List.drop_succ_cons
        rw [hsplit]
        exact htext

/-! ### The offset table and extraction -/

theorem searchEntry_text (m : EMatch) (hm : m.ok) : searchEntry m.text = some m := by
  have h := matchEntryAt_text_nil m hm
  simp only [EMatch.text] at h ⊢
  rw [searchEntry, h]

theorem foldl_dictInsert_mem (l : List (List Char × Span)) :
    ∀ (d : Dict) (x : List Char × Span),
      x ∈ l.foldl (fun d p => dictInsert d p.1 p.2) d → x ∈ d ∨ x ∈ l := by
  induction l with
  | nil =>
    intro d x h
    exact .inl h
  | cons p t ih =>
    intro d x h
    rcases ih _ _ h with hd | ht
    · dsimp only at hd
      unfold dictInsert at hd
      split at hd
      · rcases List.mem_map.mp hd with ⟨q, hq, hq2⟩
        by_cases hqk : q.1 = p.1
        · rw [if_pos hqk] at hq2
          right
          rw [← hq2]
          simp
        · rw [if_neg hqk] at hq2
          exact .inl (hq2 ▸ hq)
      · rcases List.mem_append.mp hd with h1 | h2
        · exact .inl h1
        · right
          simp at h2
          simp [h2]
    · exact .inr (List.mem_cons_of_mem _ ht)

theorem read_offsets_mem (contents : List Char) (acc : List Char) (b e : Nat)
    (h : (acc, b, e) ∈ (FastaFile.read contents).id_offsets) :
    ∃ m : EMatch, m.ok ∧ m.acc = acc ∧ e = b + m.len ∧
      contents.drop b = m.text ++ (contents.drop b).drop m.len := by
  have h' : (acc, b, e) ∈ scanFrom contents 0 := by
    rcases foldl_dictInsert_mem _ _ _ h with h0 | h1
    · simp at h0
    · exact h1
  obtain ⟨m, hok, hacc, _, he, htext⟩ := scanFromFuel_mem _ _ _ _ _ _ h'
  exact ⟨m, hok, hacc, he, by simpa using htext⟩

theorem pySlice_spec (l : List Char) (b n : Nat) :
    pySlice l b (b + n) = (l.drop b).take n := by
  unfold pySlice
  exact (List.take_drop b n l).symm

theorem extraction_ok (contents : List Char) (acc : List Char) (b e : Nat)
    (h : (acc, b, e) ∈ (FastaFile.read contents).id_offsets) :
    ∃ m : EMatch, m.ok ∧ m.acc = acc ∧ searchEntry (pySlice contents b e) = some m ∧
      (FastaFile.read contents).get_entry_at acc b e = .ok (m.desc, stripWs m.seq) := by
  obtain ⟨m, hok, hacc, he, htext⟩ := read_offsets_mem contents acc b e h
  have hslice : pySlice contents b e = m.text := by
    subst he
    rw [pySlice_spec, htext]
    exact List.take_left' (EMatch.text_length m)
  have hsearch : searchEntry (pySlice contents b e) = some m := by
    rw [hslice]
    exact searchEntry_text m hok
  refine ⟨m, hok, hacc, hsearch, ?_⟩
  unfold FastaFile.get_entry_at
  rw [show (FastaFile.read contents).fbuff = contents from rfl, hsearch]
  dsimp only
  rw [if_pos hacc]

theorem id_exists_find (f : FastaFile) (acc : List Char) (h : f.id_exists acc = true) :
    ∃ b e, dictFind f.id_offsets acc = some (b, e) ∧ (acc, b, e) ∈ f.id_offsets := by
  unfold FastaFile.id_exists at h
  cases hf : f.id_offsets.find? (fun p => p.1 = acc) with
  | none =>
    rw [List.find?_eq_none] at hf
    rw [List.any_eq_true] at h
    obtain ⟨p, hp, hpacc⟩ := h
    exact absurd hpacc (by simpa using hf p hp)
  | some p =>
    have hpacc : p.1 = acc := by simpa using List.find?_some hf
    have hpmem : p ∈ f.id_offsets := List.mem_of_find?_eq_some hf
    refine ⟨p.2.1, p.2.2, ?_, ?_⟩
    · unfold dictFind
      rw [hf]
      rfl
    · rw [show (acc, p.2.1, p.2.2) = p by rw [← hpacc]]
      exact hpmem

theorem read_get_entry_exists (contents : List Char) (acc : List Char)
    (h : (FastaFile.read contents).id_exists acc = true) :
    ∃ m : EMatch, m.ok ∧ m.acc = acc ∧
      (FastaFile.read contents).get_entry acc = .ok (m.desc, stripWs m.seq) := by
  obtain ⟨b, e, hfind, hmem⟩ := id_exists_find _ _ h
  obtain ⟨m, hok, hacc, _, hentry⟩ := extraction_ok contents acc b e hmem
  refine ⟨m, hok, hacc, ?_⟩
  unfold FastaFile.get_entry FastaFile.get_offset
  rw [if_pos h, hfind]
  exact hentry

theorem dictFind_mem (d : Dict) (acc : List Char) (b e : Nat)
    (h : dictFind d acc = some (b, e)) : (acc, b, e) ∈ d := by
  unfold dictFind at h
  cases hf : d.find? (fun p => p.1 = acc) with
  | none =>
    rw [hf] at h
    simp at h
  | some p =>
    rw [hf] at h
    obtain ⟨p1, p2⟩ := p
    have hpacc : p1 = acc := by simpa using List.find?_some hf
    have hmem := List.mem_of_find?_eq_some hf
    have hp2 : p2 = (b, e) := by simpa using h
    rw [← hpacc, ← hp2]
    exact hmem

/-- C4: for a loaded archive, `get_entry` and `get_sequence` raise the
not-found `KeyError` naming the accession exactly when the accession is absent
from the offset table (when `id_exists` is false), and both succeed whenever
it is present. -/
theorem c4_not_found_iff (contents : List Char) (acc : List Char) :
    ((FastaFile.read contents).get_entry acc = .error (.keyError acc) ↔
        (FastaFile.read contents).id_exists acc = false) ∧
    ((FastaFile.read contents).get_sequence acc = .error (.keyError acc) ↔
        (FastaFile.read contents).id_exists acc = false) ∧
    ((FastaFile.read contents).id_exists acc = true →
      ((FastaFile.read contents).get_entry acc).isOk = true ∧
      ((FastaFile.read contents).get_sequence acc).isOk = true) := by
  cases hex : (FastaFile.read contents).id_exists acc with
  | false =>
    have hoff : (FastaFile.read contents).get_offset acc = .error (.keyError acc) := by
      unfold FastaFile.get_offset
      rw [if_neg (by simp [hex])]
    have hge : (FastaFile.read contents).get_entry acc = .error (.keyError acc) := by
      unfold FastaFile.get_entry
      rw [hoff]
    have hgs : (FastaFile.read contents).get_sequence acc = .error (.keyError acc) := by
      unfold FastaFile.get_sequence
      rw [hge]
    exact ⟨by simp [hge, hex], by simp [hgs, hex], by simp [hex]⟩
  | true =>
    obtain ⟨m, hok, hacc, hentry⟩ := read_get_entry_exists contents acc hex
    have hgs : (FastaFile.read contents).get_sequence acc = .ok (stripWs m.seq) := by
      unfold FastaFile.get_sequence
      rw [hentry]
    exact ⟨by simp [hentry, hex], by simp [hgs, hex],
      fun _ => ⟨by simp [hentry, PyResult.isOk], by simp [hgs, PyResult.isOk]⟩⟩

theorem c4_witness :
    (FastaFile.read ">sp|P1|d\nAAA\n".toList).id_exists "P1".toList = true ∧
    (((FastaFile.read ">sp|P1|d\nAAA\n".toList).get_entry "P1".toList).isOk = true ∧
      ((FastaFile.read ">sp|P1|d\nAAA\n".toList).get_sequence "P1".toList).isOk = true) :=
  ⟨by decide, (c4_not_found_iff ">sp|P1|d\nAAA\n".toList "P1".toList).2.2 (by decide)⟩

/-- C8: an accession stored in the offset table by the scan always re-matches
the header pattern on the recorded slice with the same accession, so both
assertions of `_get_entry` hold and the assertion-failure branch is
unreachable. -/
theorem c8_extraction_invariant (contents : List Char) (acc : List Char) (b e : Nat)
    (h : dictFind (FastaFile.read contents).id_offsets acc = some (b, e)) :
    (searchEntry (pySlice contents b e)).map EMatch.acc = some acc ∧
    ((FastaFile.read contents).get_entry_at acc b e).isOk = true := by
  have hmem := dictFind_mem _ _ _ _ h
  obtain ⟨m, hok, hacc, hsearch, hentry⟩ := extraction_ok contents acc b e hmem
  constructor
  · rw [hsearch]
    simp [hacc]
  · rw [hentry]
    rfl

theorem c8_witness :
    dictFind (FastaFile.read ">sp|P2|dd\nCC\n".toList).id_offsets "P2".toList
      = some (0, 13) ∧
    ((searchEntry (pySlice ">sp|P2|dd\nCC\n".toList 0 13)).map EMatch.acc
        = some "P2".toList ∧
      ((FastaFile.read ">sp|P2|dd\nCC\n".toList).get_entry_at "P2".toList 0 13).isOk
        = true) :=
  ⟨by decide, c8_extraction_invariant ">sp|P2|dd\nCC\n".toList "P2".toList 0 13 (by decide)⟩

/-! ### Scanning a rendered archive -/

theorem isSeqLineChar_isSeqChar (c : Char) (h : isSeqLineChar c = true) :
    isSeqChar c = true := by
  simp [isSeqLineChar] at h
  simp [isSeqChar]
  tauto

theorem Record.wf_toMatch_ok (r : Record) (h : r.wf) : r.toMatch.ok := by
  obtain ⟨htag, hne, hacc, hdesc, hlines⟩ := h
  refine ⟨htag, hne, hacc, hdesc, ?_⟩
  intro c hc
  simp only [Record.toMatch] at hc
  rw [Record.seqText, List.mem_flatten] at hc
  obtain ⟨l', hl', hcl'⟩ := hc
  obtain ⟨l, hl, rfl⟩ := List.mem_map.mp hl'
  rcases List.mem_append.mp hcl' with hcl | hnl
  · exact isSeqLineChar_isSeqChar c (hlines l hl c hcl)
  · rw [List.mem_singleton] at hnl
    subst hnl
    decide

theorem render_cons_shape (r : Record) :
    r.render = '>' :: r.t1 :: r.t2 :: '|' :: (r.acc ++ '|' :: (r.desc ++ '\n' :: r.seqText)) :=
  rfl

theorem renderArchive_cons (r : Record) (rs : List Record) :
    renderArchive (r :: rs) = r.render ++ renderArchive rs := by
  simp [renderArchive]

theorem renderArchive_takeWhile (rs : List Record) :
    (renderArchive rs).takeWhile isSeqChar = [] := by
  cases rs with
  | nil => rfl
  | cons r rest =>
    rw [renderArchive_cons, render_cons_shape, List.cons_append]
    exact List.takeWhile_cons_of_neg (by decide)

theorem matchEntryAt_render (r : Record) (hr : r.wf) (rs : List Record) :
    matchEntryAt (r.render ++ renderArchive rs) = some r.toMatch := by
  have h := matchEntryAt_text r.toMatch (Record.wf_toMatch_ok r hr) (renderArchive rs)
  rw [renderArchive_takeWhile] at h
  simpa [Record.render] using h

theorem scanFrom_match (s : List Char) (m : EMatch) (pos : Nat)
    (hm : matchEntryAt s = some m) :
    scanFrom s pos = (m.acc, pos, pos + m.len) :: scanFrom (s.drop m.len) (pos + m.len) := by
  cases s with
  | nil =>
    rw [matchEntryAt_nil] at hm
    cases hm
  | cons c rest =>
    rw [scanFrom_cons, hm]

theorem scanFrom_nomatch (c : Char) (rest : List Char) (pos : Nat)
    (hm : matchEntryAt (c :: rest) = none) :
    scanFrom (c :: rest) pos = scanFrom rest (pos + 1) := by
  rw [scanFrom_cons, hm]

theorem scanFrom_render (rs : List Record) : ∀ pos : Nat, (∀ r ∈ rs, r.wf) →
    scanFrom (renderArchive rs) pos = recSpans rs pos := by
  induction rs with
  | nil =>
    intro pos _
    rfl
  | cons r rest ih =>
    intro pos h
    have hr := h r (List.mem_cons_self ..)
    rw [renderArchive_cons, scanFrom_match _ _ pos (matchEntryAt_render r hr rest)]
    have hlen : r.toMatch.len = r.render.length := (EMatch.text_length r.toMatch).symm
    have hdrop : (r.render ++ renderArchive rest).drop r.toMatch.len = renderArchive rest :=
      List.drop_left' hlen.symm
    rw [hdrop, hlen, ih _ (fun x hx => h x (List.mem_cons_of_mem _ hx))]
    rfl

theorem recSpans_map_fst (rs : List Record) : ∀ pos : Nat,
    (recSpans rs pos).map Prod.fst = rs.map Record.acc := by
  induction rs with
  | nil =>
    intro pos
    rfl
  | cons r rest ih =>
    intro pos
    rw [recSpans, List.map_cons, List.map_cons, ih]

theorem dictInsert_not_mem (d : Dict) (k : List Char) (v : Span)
    (h : ¬ (d.any (fun p => p.1 = k) = true)) :
    dictInsert d k v = d ++ [(k, v)] := by
  rw [dictInsert, if_neg h]

theorem foldl_dictInsert_nodup (l : List (List Char × Span)) :
    ∀ d : Dict, ((d ++ l).map Prod.fst).Nodup →
      l.foldl (fun d p => dictInsert d p.1 p.2) d = d ++ l := by
  induction l with
  | nil =>
    intro d _
    simp
  | cons p t ih =>
    intro d h
    obtain ⟨k, v⟩ := p
    show List.foldl _ (dictInsert d k v) t = d ++ (k, v) :: t
    have h' : ((d ++ [(k, v)] ++ t).map Prod.fst).Nodup := by
      simpa [List.append_assoc] using h
    have hknot : ¬ (d.any (fun q => q.1 = k) = true) := by
      intro hany
      rw [List.any_eq_true] at hany
      obtain ⟨q, hq, hqk⟩ := hany
      have hqk' : q.1 = k := by simpa using hqk
      have hk1 : k ∈ d.map Prod.fst := hqk' ▸ List.mem_map_of_mem Prod.fst hq
      have hk2 : k ∈ ((k, v) :: t).map Prod.fst := by simp
      have hnd := h
      rw [List.map_append, List.nodup_append] at hnd
      exact hnd.2.2 hk1 hk2
    rw [dictInsert_not_mem _ _ _ hknot]
    have hih := ih (d ++ [(k, v)]) h'
    simpa using hih

theorem read_render_offsets (rs : List Record) (hwf : ∀ r ∈ rs, r.wf)
    (hnd : (rs.map Record.acc).Nodup) :
    (FastaFile.read (renderArchive rs)).id_offsets = recSpans rs 0 := by
  show (scanFrom (renderArchive rs) 0).foldl (fun d p => dictInsert d p.1 p.2) []
      = recSpans rs 0
  rw [scanFrom_render rs 0 hwf]
  have h := foldl_dictInsert_nodup (recSpans rs 0) []
    (by simpa [recSpans_map_fst] using hnd)
  simpa using h

/-- C1: an archive of well-formed records with pairwise distinct accessions
indexes to exactly one entry per record: `iter_ids` yields exactly the
records' accessions (in order), the table has as many entries as records, and
`id_exists` holds for each accession. -/
theorem c1_wellformed_index (rs : List Record) (hwf : ∀ r ∈ rs, r.wf)
    (hnd : (rs.map Record.acc).Nodup) :
    ((FastaFile.read (renderArchive rs)).iter_ids.map Prod.snd = rs.map Record.acc) ∧
    (FastaFile.read (renderArchive rs)).iter_ids.length = rs.length ∧
    ∀ r ∈ rs, (FastaFile.read (renderArchive rs)).id_exists r.acc = true := by
  have hoff := read_render_offsets rs hwf hnd
  have hkeys : dictKeys (FastaFile.read (renderArchive rs)).id_offsets
      = rs.map Record.acc := by
    rw [hoff]
    unfold dictKeys
    rw [recSpans_map_fst]
  refine ⟨?_, ?_, ?_⟩
  · unfold FastaFile.iter_ids
    rw [hkeys]
    exact List.enumFrom_map_snd 0 _
  · unfold FastaFile.iter_ids
    rw [hkeys]
    simp
  · intro r hr
    unfold FastaFile.id_exists
    rw [List.any_eq_true, hoff]
    have hmem : r.acc ∈ (recSpans rs 0).map Prod.fst := by
      rw [recSpans_map_fst]
      exact List.mem_map_of_mem _ hr
    obtain ⟨p, hp, hpe⟩ := List.mem_map.mp hmem
    exact ⟨p, hp, by simp [hpe]⟩

theorem c1_witness :
    (∀ r ∈ ([⟨'s', 'p', "P1".toList, "d1".toList, ["AA".toList]⟩,
        ⟨'t', 'r', "Q2".toList, "d2".toList, []⟩] : List Record), r.wf) ∧
    (([⟨'s', 'p', "P1".toList, "d1".toList, ["AA".toList]⟩,
        ⟨'t', 'r', "Q2".toList, "d2".toList, []⟩] : List Record).map Record.acc).Nodup ∧
    (((FastaFile.read (renderArchive [⟨'s', 'p', "P1".toList, "d1".toList, ["AA".toList]⟩,
        ⟨'t', 'r', "Q2".toList, "d2".toList, []⟩])).iter_ids.map Prod.snd
        = ["P1".toList, "Q2".toList]) ∧
      (FastaFile.read (renderArchive [⟨'s', 'p', "P1".toList, "d1".toList, ["AA".toList]⟩,
        ⟨'t', 'r', "Q2".toList, "d2".toList, []⟩])).iter_ids.length = 2 ∧
      ∀ r ∈ ([⟨'s', 'p', "P1".toList, "d1".toList, ["AA".toList]⟩,
        ⟨'t', 'r', "Q2".toList, "d2".toList, []⟩] : List Record),
        (FastaFile.read (renderArchive [⟨'s', 'p', "P1".toList, "d1".toList, ["AA".toList]⟩,
          ⟨'t', 'r', "Q2".toList, "d2".toList, []⟩])).id_exists r.acc = true) := by
  refine ⟨by decide, by decide, ?_⟩
  exact c1_wellformed_index _ (by decide) (by decide)

/-! ### Last-write-wins in the offset table -/

theorem dictFind_dictInsert (d : Dict) (k : List Char) (v : Span) (k' : List Char) :
    dictFind (dictInsert d k v) k' = if k' = k then some v else dictFind d k' := by
  unfold dictInsert dictFind
  cases hany : d.any (fun p => p.1 = k) with
  | true =>
    rw [if_pos rfl]
    rw [List.find?_map]
    have hpred : ((fun p => decide (p.1 = k')) ∘ fun p => if p.1 = k then (k, v) else p)
        = fun p : List Char × Span => decide (p.1 = k') := by
      funext p
      by_cases hp : p.1 = k
      · simp [hp]
      · simp [hp]
    rw [hpred]
    by_cases hk : k' = k
    · subst hk
      rw [if_pos rfl]
      rw [List.any_eq_true] at hany
      obtain ⟨q, hq, hqk⟩ := hany
      have hqk' : q.1 = k' := by simpa using hqk
      cases hf : d.find? (fun p => decide (p.1 = k')) with
      | none =>
        rw [List.find?_eq_none] at hf
        exact absurd (by simpa using hqk') (by simpa using hf q hq)
      | some q0 =>
        have hq0 : q0.1 = k' := by simpa using List.find?_some hf
        simp [hf, hq0]
    · rw [if_neg hk]
      cases hf : d.find? (fun p => decide (p.1 = k')) with
      | none => simp [hf]
      | some q0 =>
        have hq0 : q0.1 = k' := by simpa using List.find?_some hf
        have hq0k : ¬ (q0.1 = k) := by
          rw [hq0]
          exact hk
        simp [hf, hq0k]
  | false =>
    rw [if_neg (by simp)]
    rw [List.find?_append]
    by_cases hk : k' = k
    · subst hk
      have hnone : d.find? (fun p => decide (p.1 = k')) = none := by
        rw [List.find?_eq_none]
        intro p hp
        rw [List.any_eq_false] at hany
        simpa using hany p hp
      rw [if_pos rfl, hnone]
      simp
    · rw [if_neg hk]
      have hsing : [(k, v)].find? (fun p => decide (p.1 = k')) = none := by
        apply List.find?_eq_none.mpr
        intro p hp
        rw [List.mem_singleton] at hp
        subst hp
        simp only [decide_eq_true_eq]
        exact fun h => hk h.symm
      rw [hsing, Option.or_none]

theorem dictFind_foldl (l : List (List Char × Span)) :
    ∀ (d : Dict) (k : List Char),
      dictFind (l.foldl (fun d p => dictInsert d p.1 p.2) d) k
        = ((l.reverse.find? (fun p => p.1 = k)).map Prod.snd).or (dictFind d k) := by
  induction l with
  | nil =>
    intro d k
    simp
  | cons p t ih =>
    intro d k
    show dictFind (List.foldl _ (dictInsert d p.1 p.2) t) k = _
    rw [ih, List.reverse_cons, List.find?_append, dictFind_dictInsert]
    by_cases hk : k = p.1
    · have hsing : [p].find? (fun q => decide (q.1 = k)) = some p := by
        simp [List.find?, hk]
      rw [if_pos hk, hsing, Option.map_or']
      simp [Option.or_assoc]
    · have hsing : [p].find? (fun q => decide (q.1 = k)) = none := by
        apply List.find?_eq_none.mpr
        intro q hq
        rw [List.mem_singleton] at hq
        subst hq
        simp only [decide_eq_true_eq]
        exact fun h => hk h.symm
      rw [if_neg hk, hsing, Option.or_none]

theorem renderArchive_append (rs1 rs2 : List Record) :
    renderArchive (rs1 ++ rs2) = renderArchive rs1 ++ renderArchive rs2 := by
  simp [renderArchive]

theorem recSpans_append (rs1 rs2 : List Record) : ∀ pos : Nat,
    recSpans (rs1 ++ rs2) pos
      = recSpans rs1 pos ++ recSpans rs2 (pos + (renderArchive rs1).length) := by
  induction rs1 with
  | nil =>
    intro pos
    simp [recSpans, renderArchive]
  | cons r t ih =>
    intro pos
    rw [List.cons_append, recSpans, recSpans, ih, renderArchive_cons]
    simp [Nat.add_assoc]

theorem read_render_last (rs1 : List Record) (r : Record) (rs2 : List Record)
    (hwf : ∀ x ∈ rs1 ++ r :: rs2, x.wf)
    (hlast : r.acc ∉ rs2.map Record.acc) :
    dictFind (FastaFile.read (renderArchive (rs1 ++ r :: rs2))).id_offsets r.acc
      = some ((renderArchive rs1).length, (renderArchive rs1).length + r.render.length) ∧
    (FastaFile.read (renderArchive (rs1 ++ r :: rs2))).get_entry r.acc
      = .ok (r.desc, stripWs r.seqText) := by
  have hrwf : r.wf := hwf r (by simp)
  have hoffs : (FastaFile.read (renderArchive (rs1 ++ r :: rs2))).id_offsets
      = (recSpans (rs1 ++ r :: rs2) 0).foldl (fun d p => dictInsert d p.1 p.2) [] := by
    show (scanFrom (renderArchive (rs1 ++ r :: rs2)) 0).foldl _ [] = _
    rw [scanFrom_render _ 0 hwf]
  have hspans : recSpans (rs1 ++ r :: rs2) 0
      = recSpans rs1 0 ++ (r.acc, (renderArchive rs1).length,
          (renderArchive rs1).length + r.render.length)
        :: recSpans rs2 ((renderArchive rs1).length + r.render.length) := by
    rw [recSpans_append]
    rw [recSpans]
    simp
  have hfind : dictFind (FastaFile.read (renderArchive (rs1 ++ r :: rs2))).id_offsets r.acc
      = some ((renderArchive rs1).length, (renderArchive rs1).length + r.render.length) := by
    rw [hoffs, dictFind_foldl, hspans]
    rw [List.reverse_append, List.reverse_cons, List.find?_append, List.find?_append]
    have h2 : (recSpans rs2 ((renderArchive rs1).length + r.render.length)).reverse.find?
        (fun p => decide (p.1 = r.acc)) = none := by
      rw [List.find?_eq_none]
      intro p hp
      rw [List.mem_reverse] at hp
      have : p.1 ∈ rs2.map Record.acc := by
        rw [← recSpans_map_fst rs2 ((renderArchive rs1).length + r.render.length)]
        exact List.mem_map_of_mem _ hp
      simp only [decide_eq_true_eq]
      intro hpe
      exact hlast (hpe ▸ this)
    have hsing : [(r.acc, (renderArchive rs1).length,
        (renderArchive rs1).length + r.render.length)].find?
          (fun p => decide (p.1 = r.acc))
        = some (r.acc, (renderArchive rs1).length,
            (renderArchive rs1).length + r.render.length) := by
      simp [List.find?]
    rw [h2, hsing]
    simp
  refine ⟨hfind, ?_⟩
  have hmem := dictFind_mem _ _ _ _ hfind
  have hex : (FastaFile.read (renderArchive (rs1 ++ r :: rs2))).id_exists r.acc = true := by
    unfold FastaFile.id_exists
    rw [List.any_eq_true]
    exact ⟨_, hmem, by simp⟩
  have hbuf : renderArchive (rs1 ++ r :: rs2)
      = renderArchive rs1 ++ (r.render ++ renderArchive rs2) := by
    rw [renderArchive_append, renderArchive_cons]
  have hslice : pySlice (renderArchive (rs1 ++ r :: rs2)) (renderArchive rs1).length
      ((renderArchive rs1).length + r.render.length) = r.render := by
    rw [pySlice_spec, hbuf, List.drop_left' rfl]
    exact List.take_left' rfl
  have hentry : (FastaFile.read (renderArchive (rs1 ++ r :: rs2))).get_entry_at r.acc
      (renderArchive rs1).length ((renderArchive rs1).length + r.render.length)
      = .ok (r.desc, stripWs r.seqText) := by
    unfold FastaFile.get_entry_at
    rw [show (FastaFile.read (renderArchive (rs1 ++ r :: rs2))).fbuff
        = renderArchive (rs1 ++ r :: rs2) from rfl]
    rw [hslice, show r.render = r.toMatch.text from rfl,
      searchEntry_text r.toMatch (Record.wf_toMatch_ok r hrwf)]
    dsimp only
    rw [if_pos (show r.toMatch.acc = r.acc from rfl)]
    rfl
  unfold FastaFile.get_entry FastaFile.get_offset
  rw [if_pos hex, hfind]
  exact hentry

/-- C7: when two well-formed records share an accession, the offset table maps
that accession to the span of the rightmost occurrence, and `get_entry`
returns that record's description and (stripped) sequence: last write wins. -/
theorem c7_last_write_wins (rs1 : List Record) (r : Record) (rs2 : List Record)
    (hwf : ∀ x ∈ rs1 ++ r :: rs2, x.wf)
    (_hdup : r.acc ∈ rs1.map Record.acc)
    (hlast : r.acc ∉ rs2.map Record.acc) :
    dictFind (FastaFile.read (renderArchive (rs1 ++ r :: rs2))).id_offsets r.acc
      = some ((renderArchive rs1).length, (renderArchive rs1).length + r.render.length) ∧
    (FastaFile.read (renderArchive (rs1 ++ r :: rs2))).get_entry r.acc
      = .ok (r.desc, stripWs r.seqText) :=
  read_render_last rs1 r rs2 hwf hlast

theorem c7_witness :
    (∀ x ∈ ([⟨'s', 'p', "P1".toList, "d1".toList, ["AAA".toList]⟩] ++
        (⟨'s', 'p', "P1".toList, "d2".toList, ["CCC".toList]⟩ : Record) :: []), x.wf) ∧
    "P1".toList ∈ ([⟨'s', 'p', "P1".toList, "d1".toList, ["AAA".toList]⟩] :
        List Record).map Record.acc ∧
    "P1".toList ∉ ([] : List Record).map Record.acc ∧
    (dictFind (FastaFile.read (renderArchive
        ([⟨'s', 'p', "P1".toList, "d1".toList, ["AAA".toList]⟩] ++
          (⟨'s', 'p', "P1".toList, "d2".toList, ["CCC".toList]⟩ : Record) :: []))).id_offsets
        "P1".toList = some (14, 28) ∧
      (FastaFile.read (renderArchive
        ([⟨'s', 'p', "P1".toList, "d1".toList, ["AAA".toList]⟩] ++
          (⟨'s', 'p', "P1".toList, "d2".toList, ["CCC".toList]⟩ : Record) :: []))).get_entry
        "P1".toList = .ok ("d2".toList, "CCC".toList)) := by
  refine ⟨by decide, by decide, by decide, ?_⟩
  have h := c7_last_write_wins
    [⟨'s', 'p', "P1".toList, "d1".toList, ["AAA".toList]⟩]
    ⟨'s', 'p', "P1".toList, "d2".toList, ["CCC".toList]⟩ [] (by decide) (by decide) (by decide)
  refine ⟨?_, ?_⟩
  · rw [h.1]
    decide
  · rw [h.2]
    decide

/-! ### Chunking and formatting -/

theorem chunksFuel_nil (fuel w : Nat) : chunksFuel fuel w [] = [] := by
  cases fuel <;> rfl

theorem chunksFuel_mono (fuel1 : Nat) : ∀ (fuel2 w : Nat) (s : List Char), 1 ≤ w →
    s.length ≤ fuel1 → s.length ≤ fuel2 → chunksFuel fuel1 w s = chunksFuel fuel2 w s := by
  induction fuel1 with
  | zero =>
    intro fuel2 w s _ h1 _
    have hs : s = [] := List.length_eq_zero.mp (Nat.le_zero.mp h1)
    subst hs
    rw [chunksFuel_nil, chunksFuel_nil]
  | succ f1 ih =>
    intro fuel2 w s hw h1 h2
    cases s with
    | nil => rw [chunksFuel_nil, chunksFuel_nil]
    | cons c rest =>
      cases fuel2 with
      | zero => simp at h2
      | succ f2 =>
        rw [chunksFuel, chunksFuel]
        congr 1
        apply ih _ _ _ hw
        · simp at h1 ⊢
          omega
        · simp at h2 ⊢
          omega

theorem chunks_cons_eq (w : Nat) (hw : 1 ≤ w) (c : Char) (rest : List Char) :
    chunks w (c :: rest) = (c :: rest).take w :: chunks w ((c :: rest).drop w) := by
  show chunksFuel (rest.length + 1) w (c :: rest) = _
  rw [chunksFuel]
  congr 1
  apply chunksFuel_mono _ _ _ _ hw
  · simp
    omega
  · exact le_refl _

theorem chunksFuel_flatten (fuel : Nat) : ∀ (w : Nat) (s : List Char), 1 ≤ w →
    s.length ≤ fuel → (chunksFuel fuel w s).flatten = s := by
  induction fuel with
  | zero =>
    intro w s _ h
    have hs : s = [] := List.length_eq_zero.mp (Nat.le_zero.mp h)
    subst hs
    rfl
  | succ f ih =>
    intro w s hw h
    cases s with
    | nil => rw [chunksFuel_nil]; rfl
    | cons c rest =>
      rw [chunksFuel, List.flatten_cons]
      rw [ih w _ hw (by simp at h ⊢; omega)]
      exact List.take_append_drop w (c :: rest)

theorem chunks_flatten (w : Nat) (hw : 1 ≤ w) (s : List Char) :
    (chunks w s).flatten = s :=
  chunksFuel_flatten s.length w s hw (le_refl _)

theorem chunksFuel_mem (fuel : Nat) : ∀ (w : Nat) (s : List Char) (l : List Char), 1 ≤ w →
    s.length ≤ fuel → l ∈ chunksFuel fuel w s →
    l ≠ [] ∧ l.length ≤ w ∧ ∀ c ∈ l, c ∈ s := by
  induction fuel with
  | zero =>
    intro w s l _ h hmem
    have hs : s = [] := List.length_eq_zero.mp (Nat.le_zero.mp h)
    subst hs
    simp [chunksFuel_nil] at hmem
  | succ f ih =>
    intro w s l hw h hmem
    cases s with
    | nil => simp [chunksFuel_nil] at hmem
    | cons c rest =>
      rw [chunksFuel] at hmem
      rcases List.mem_cons.mp hmem with h1 | h2
      · subst h1
        refine ⟨?_, ?_, ?_⟩
        · cases w with
          | zero => omega
          | succ w' => simp
        · simp
        · intro x hx
          exact List.mem_of_mem_take hx
      · obtain ⟨hne, hlen, hsub⟩ := ih w _ l hw (by simp at h ⊢; omega) h2
        exact ⟨hne, hlen, fun x hx => List.mem_of_mem_drop (hsub x hx)⟩

theorem chunksFuel_dropLast_len (fuel : Nat) : ∀ (w : Nat) (s : List Char) (l : List Char),
    1 ≤ w → s.length ≤ fuel → l ∈ (chunksFuel fuel w s).dropLast → l.length = w := by
  induction fuel with
  | zero =>
    intro w s l _ h hmem
    have hs : s = [] := List.length_eq_zero.mp (Nat.le_zero.mp h)
    subst hs
    simp [chunksFuel_nil] at hmem
  | succ f ih =>
    intro w s l hw h hmem
    cases s with
    | nil => simp [chunksFuel_nil] at hmem
    | cons c rest =>
      rw [chunksFuel] at hmem
      cases hrest : chunksFuel f w ((c :: rest).drop w) with
      | nil =>
        rw [hrest] at hmem
        simp at hmem
      | cons y ys =>
        rw [hrest] at hmem
        rw [List.dropLast_cons₂] at hmem
        rcases List.mem_cons.mp hmem with h1 | h2
        · subst h1
          have hdne : (c :: rest).drop w ≠ [] := by
            intro hnil
            rw [hnil, chunksFuel_nil] at hrest
            cases hrest
          have hlen : w ≤ rest.length + 1 := by
            by_contra hlt
            exact hdne (List.drop_eq_nil_of_le (by simp; omega))
          simp [List.length_take]
          omega
        · exact ih w _ l hw (by simp at h ⊢; omega) (hrest ▸ h2)

theorem chunks_mem (w : Nat) (hw : 1 ≤ w) (s : List Char) (l : List Char)
    (h : l ∈ chunks w s) : l ≠ [] ∧ l.length ≤ w ∧ ∀ c ∈ l, c ∈ s :=
  chunksFuel_mem s.length w s l hw (le_refl _) h

theorem chunks_dropLast_len (w : Nat) (hw : 1 ≤ w) (s : List Char) (l : List Char)
    (h : l ∈ (chunks w s).dropLast) : l.length = w :=
  chunksFuel_dropLast_len s.length w s l hw (le_refl _) h

/-! ### Joining and splitting lines -/

theorem stripWs_mem (s : List Char) (c : Char) (h : c ∈ stripWs s) :
    c ∈ s ∧ isSpace c = false := by
  unfold stripWs at h
  have h2 := List.mem_filter.mp h
  refine ⟨h2.1, ?_⟩
  simpa using h2.2

theorem stripWs_stripWs (s : List Char) : stripWs (stripWs s) = stripWs s := by
  apply List.filter_eq_self.mpr
  intro c hc
  simpa using (stripWs_mem s c hc).2

theorem stripWs_append (s t : List Char) : stripWs (s ++ t) = stripWs s ++ stripWs t := by
  simp [stripWs]

theorem stripWs_no_space (s : List Char) (h : ∀ c ∈ s, isSpace c = false) :
    stripWs s = s := by
  apply List.filter_eq_self.mpr
  intro c hc
  simpa using h c hc

theorem stripWs_joinNl (cs : List (List Char)) (h : ∀ l ∈ cs, ∀ c ∈ l, isSpace c = false) :
    stripWs (joinNl cs) = cs.flatten := by
  induction cs with
  | nil => rfl
  | cons c cs ih =>
    cases cs with
    | nil =>
      show stripWs c = List.flatten [c]
      rw [stripWs_no_space c (h c (by simp))]
      simp
    | cons c2 cs2 =>
      rw [joinNl, stripWs_append]
      rw [stripWs_no_space c (h c (by simp))]
      have hnl : stripWs ('\n' :: joinNl (c2 :: cs2)) = stripWs (joinNl (c2 :: cs2)) := by
        unfold stripWs
        rw [List.filter_cons_of_neg (by decide)]
      rw [hnl, ih (fun l hl => h l (List.mem_cons_of_mem _ hl))]
      simp

theorem linesOf_no_newline (l : List Char) (h : ∀ c ∈ l, c ≠ '\n') : linesOf l = [l] := by
  induction l with
  | nil => rfl
  | cons c t ih =>
    rw [linesOf, if_neg (h c (by simp))]
    rw [ih (fun x hx => h x (List.mem_cons_of_mem _ hx))]

theorem linesOf_append_nl (l rest : List Char) (h : ∀ c ∈ l, c ≠ '\n') :
    linesOf (l ++ '\n' :: rest) = l :: linesOf rest := by
  induction l with
  | nil =>
    show linesOf ('\n' :: rest) = [] :: linesOf rest
    rw [linesOf, if_pos rfl]
  | cons c t ih =>
    rw [List.cons_append, linesOf, if_neg (h c (by simp))]
    rw [ih (fun x hx => h x (List.mem_cons_of_mem _ hx))]

theorem linesOf_joinNl (cs : List (List Char)) (hne : cs ≠ [])
    (h : ∀ l ∈ cs, ∀ c ∈ l, c ≠ '\n') : linesOf (joinNl cs) = cs := by
  induction cs with
  | nil => exact absurd rfl hne
  | cons c cs ih =>
    cases cs with
    | nil => exact linesOf_no_newline c (h c (by simp))
    | cons c2 cs2 =>
      rw [joinNl, linesOf_append_nl c _ (h c (by simp))]
      rw [ih (by simp) (fun l hl => h l (List.mem_cons_of_mem _ hl))]

theorem joinNl_head (c : List Char) (cs : List (List Char)) (hc : c ≠ []) :
    (joinNl (c :: cs)).head? = c.head? := by
  cases cs with
  | nil => rfl
  | cons c2 cs2 =>
    rw [joinNl, List.head?_append]
    cases c with
    | nil => exact absurd rfl hc
    | cons x xs => rfl

theorem joinNl_ne_nil (c : List Char) (cs : List (List Char)) (hc : c ≠ []) :
    joinNl (c :: cs) ≠ [] := by
  cases cs with
  | nil => exact hc
  | cons c2 cs2 =>
    rw [joinNl]
    simp

theorem joinNl_getLast (cs : List (List Char)) : ∀ c : List Char, c ≠ [] →
    (∀ l ∈ cs, l ≠ []) → ∃ last ∈ c :: cs, (joinNl (c :: cs)).getLast? = last.getLast? := by
  induction cs with
  | nil =>
    intro c _ _
    exact ⟨c, by simp, rfl⟩
  | cons c2 cs2 ih =>
    intro c hc hcs
    obtain ⟨last, hmem, hlast⟩ :=
      ih c2 (hcs c2 (by simp)) (fun l hl => hcs l (List.mem_cons_of_mem _ hl))
    refine ⟨last, List.mem_cons_of_mem _ hmem, ?_⟩
    rw [joinNl, List.getLast?_append]
    cases hj : joinNl (c2 :: cs2) with
    | nil => exact absurd hj (joinNl_ne_nil c2 cs2 (hcs c2 (by simp)))
    | cons j js =>
      rw [List.getLast?_cons_cons, ← hj, hlast]
      cases hl : last.getLast? with
      | none =>
        rw [List.getLast?_eq_none_iff] at hl
        exact absurd hl (hcs last hmem)
      | some z => rfl

theorem format_sequence_pos (seq : List Char) (w : Int) (hw : 1 ≤ w) :
    format_sequence seq (some w) = .ok (joinNl (chunks w.toNat (stripWs seq))) := by
  show (if w = 0 then PyResult.error Err.valueError
      else if w < 0 then PyResult.ok []
      else PyResult.ok (joinNl (chunks w.toNat (stripWs seq))))
    = PyResult.ok (joinNl (chunks w.toNat (stripWs seq)))
  rw [if_neg (by omega), if_neg (by omega)]

/-- C10: `format_sequence` with width 0 raises `ValueError` (the zero `range`
step), and with any negative width returns the empty string regardless of the
input. -/
theorem c10_width_edge_cases :
    (∀ seq : List Char, format_sequence seq (some 0) = .error .valueError) ∧
    (∀ (seq : List Char) (w : Int), w < 0 → format_sequence seq (some w) = .ok []) := by
  constructor
  · intro seq
    rfl
  · intro seq w hw
    show (if w = 0 then PyResult.error Err.valueError
        else if w < 0 then PyResult.ok []
        else PyResult.ok (joinNl (chunks w.toNat (stripWs seq)))) = PyResult.ok []
    rw [if_neg (by omega), if_pos hw]

theorem c10_witness :
    format_sequence "AB CD".toList (some 0) = .error .valueError ∧
    format_sequence "AB CD".toList (some (-3)) = .ok [] :=
  ⟨c10_width_edge_cases.1 "AB CD".toList,
    c10_width_edge_cases.2 "AB CD".toList (-3) (by decide)⟩

/-- C5: for any width `w ≥ 1`, the formatted output has no leading or trailing
line break, every line but possibly the last has length exactly `w` and every
line length is at most `w`, stripping whitespace from the output reproduces
the whitespace-stripped input, and formatting is idempotent at the same
width. -/
theorem c5_format_sequence (seq : List Char) (w : Int) (hw : 1 ≤ w) (out : List Char)
    (hout : format_sequence seq (some w) = .ok out) :
    out.head? ≠ some '\n' ∧ out.getLast? ≠ some '\n' ∧
    (∀ l ∈ (linesOf out).dropLast, (l.length : Int) = w) ∧
    (∀ l ∈ linesOf out, (l.length : Int) ≤ w) ∧
    stripWs out = stripWs seq ∧
    format_sequence out (some w) = .ok out := by
  have hwn : 1 ≤ w.toNat := by omega
  have hcast : (w.toNat : Int) = w := Int.toNat_of_nonneg (by omega)
  rw [format_sequence_pos seq w hw] at hout
  have hout' : out = joinNl (chunks w.toNat (stripWs seq)) := by
    cases hout
    rfl
  subst hout'
  have hchunk := fun l hl => chunks_mem w.toNat hwn (stripWs seq) l hl
  have hnspace : ∀ l ∈ chunks w.toNat (stripWs seq), ∀ c ∈ l, isSpace c = false := by
    intro l hl c hc
    exact (stripWs_mem seq c ((hchunk l hl).2.2 c hc)).2
  have hnnl : ∀ l ∈ chunks w.toNat (stripWs seq), ∀ c ∈ l, c ≠ '\n' := by
    intro l hl c hc
    intro hceq
    subst hceq
    exact absurd (hnspace l hl _ hc) (by decide)
  have hne : ∀ l ∈ chunks w.toNat (stripWs seq), l ≠ [] := by
    intro l hl
    exact (hchunk l hl).1
  have hstrip : stripWs (joinNl (chunks w.toNat (stripWs seq))) = stripWs seq := by
    rw [stripWs_joinNl _ hnspace, chunks_flatten w.toNat hwn]
  cases hcs : chunks w.toNat (stripWs seq) with
  | nil =>
    rw [hcs] at hstrip
    refine ⟨by simp [joinNl], by simp [joinNl], ?_, ?_, hstrip, ?_⟩
    · intro l hl
      simp [joinNl, linesOf] at hl
    · intro l hl
      simp [joinNl, linesOf] at hl
      subst hl
      simp
      omega
    · rw [format_sequence_pos _ w hw, hstrip, hcs]
  | cons c0 cs0 =>
    rw [hcs] at hstrip
    have hne' : ∀ l ∈ c0 :: cs0, l ≠ [] := fun l hl => hne l (by rw [hcs]; exact hl)
    have hnnl' : ∀ l ∈ c0 :: cs0, ∀ c ∈ l, c ≠ '\n' :=
      fun l hl => hnnl l (by rw [hcs]; exact hl)
    have hlines : linesOf (joinNl (c0 :: cs0)) = c0 :: cs0 :=
      linesOf_joinNl _ (by simp) hnnl'
    refine ⟨?_, ?_, ?_, ?_, hstrip, ?_⟩
    · rw [joinNl_head c0 cs0 (hne' c0 (by simp))]
      cases hc0 : c0 with
      | nil => exact absurd hc0 (hne' c0 (by simp))
      | cons x xs =>
        have hxn := hnnl' c0 (by simp) x (by rw [hc0]; simp)
        simp
        exact hxn
    · obtain ⟨last, hmem, hlast⟩ := joinNl_getLast cs0 c0 (hne' c0 (by simp))
        (fun l hl => hne' l (List.mem_cons_of_mem _ hl))
      rw [hlast]
      cases hgl : last.getLast? with
      | none => simp
      | some y =>
        have hy : y ∈ last := List.mem_of_getLast?_eq_some hgl
        simp
        intro hcontr
        exact absurd hcontr (hnnl' last hmem y hy)
    · intro l hl
      rw [hlines] at hl
      rw [chunks_dropLast_len w.toNat hwn (stripWs seq) l (by rw [hcs]; exact hl)]
      exact hcast
    · intro l hl
      rw [hlines] at hl
      have hlen := (hchunk l (by rw [hcs]; exact hl)).2.1
      omega
    · rw [format_sequence_pos _ w hw, hstrip, hcs]

theorem c5_witness :
    (1 : Int) ≤ 3 ∧
    format_sequence "ABCD EF".toList (some 3) = .ok "ABC\nDEF".toList ∧
    ("ABC\nDEF".toList.head? ≠ some '\n' ∧ "ABC\nDEF".toList.getLast? ≠ some '\n' ∧
      (∀ l ∈ (linesOf "ABC\nDEF".toList).dropLast, (l.length : Int) = 3) ∧
      (∀ l ∈ linesOf "ABC\nDEF".toList, (l.length : Int) ≤ 3) ∧
      stripWs "ABC\nDEF".toList = stripWs "ABCD EF".toList ∧
      format_sequence "ABC\nDEF".toList (some 3) = .ok "ABC\nDEF".toList) :=
  ⟨by decide, by decide,
    c5_format_sequence "ABCD EF".toList 3 (by decide) "ABC\nDEF".toList (by decide)⟩

/-! ### The subsetting driver -/

/-- C2: evaluating `main`'s subset construction at the repeated request
`["P1","P2","P1"]` (all present in the archive).  The projection is built
from `select_ids`, so the entry for `P1` appears twice, while the
first-occurrence dedup `unique_select_ids` that `main` computes — and then
never uses — is `["P1","P2"]` as the claim demands. -/
theorem c2_duplicates_kept :
    mainEntries (FastaFile.read ">sp|P1|d1\nAAA\n>sp|P2|d2\nCCC\n".toList)
        ["P1".toList, "P2".toList, "P1".toList]
      = .ok [["P1".toList, "d1".toList, "AAA".toList],
          ["P2".toList, "d2".toList, "CCC".toList],
          ["P1".toList, "d1".toList, "AAA".toList]] ∧
    uniqueSelectIds ["P1".toList, "P2".toList, "P1".toList]
      = ["P1".toList, "P2".toList] := by
  exact ⟨by decide, by decide⟩

/-- C3: evaluating the write phase on a singleton resolved list whose
accession exists.  `main` passes 3-tuples `(accession, description, sequence)`
to `writeEntries`, which unpacks `accession, db, description, seq`, so the
write raises `ValueError` instead of producing the claimed records — with or
without wrapping. -/
theorem c3_write_crashes :
    mainWrite (FastaFile.read ">sp|P1|d1\nAAA\n".toList) ["P1".toList] false
      = .error .valueError ∧
    mainWrite (FastaFile.read ">sp|P1|d1\nAAA\n".toList) ["P1".toList] true
      = .error .valueError := by
  exact ⟨by decide, by decide⟩

/-! ### Which headers the scan accepts: skipping malformed records -/

theorem matchEntryAt_eq (c0 t1 t2 c3 : Char) (rest : List Char) :
    matchEntryAt (c0 :: t1 :: t2 :: c3 :: rest)
      = if c0 = '>' && c3 = '|' && validTag t1 t2 then
          if (rest.takeWhile isWordChar).isEmpty then none
          else
            match rest.dropWhile isWordChar with
            | c4 :: rest2 =>
              if c4 = '|' then
                match rest2.dropWhile (fun c => c != '\n') with
                | _ :: rest3 => some ⟨t1, t2, rest.takeWhile isWordChar,
                    rest2.takeWhile (fun c => c != '\n'), rest3.takeWhile isSeqChar⟩
                | [] => none
              else none
            | [] => none
        else none := rfl

theorem scanFrom_skip (l : List Char) : ∀ (restbuf : List Char) (pos : Nat),
    (∀ i < l.length, matchEntryAt (l.drop i ++ restbuf) = none) →
    scanFrom (l ++ restbuf) pos = scanFrom restbuf (pos + l.length) := by
  induction l with
  | nil =>
    intro restbuf pos _
    simp
  | cons c t ih =>
    intro restbuf pos h
    rw [List.cons_append]
    rw [scanFrom_nomatch _ _ _ (by simpa using h 0 (by simp))]
    rw [ih restbuf (pos + 1)
      (fun i hi => by simpa using h (i + 1) (by simp; omega))]
    congr 1
    simp
    omega

theorem matchEntryAt_none_of_no_gt (s restbuf : List Char) (h : ∀ c ∈ s, c ≠ '>')
    (hs : s ≠ []) : matchEntryAt (s ++ restbuf) = none := by
  cases s with
  | nil => exact absurd rfl hs
  | cons c t =>
    rw [List.cons_append]
    exact matchEntryAt_not_gt c _ (h c (by simp))

theorem seqText_no_gt (r : Record)
    (hlines : ∀ l ∈ r.seqLines, ∀ c ∈ l, isSeqLineChar c = true) :
    ∀ c ∈ r.seqText, c ≠ '>' := by
  intro c hc
  rw [Record.seqText, List.mem_flatten] at hc
  obtain ⟨l', hl', hcl'⟩ := hc
  obtain ⟨l, hl, rfl⟩ := List.mem_map.mp hl'
  rcases List.mem_append.mp hcl' with hcl | hnl
  · have hline := hlines l hl c hcl
    intro hceq
    subst hceq
    exact absurd hline (by decide)
  · rw [List.mem_singleton] at hnl
    subst hnl
    decide

theorem render_body_no_gt (r : Record) (hc : r.cand) :
    ∀ c ∈ r.t1 :: r.t2 :: '|' :: (r.acc ++ '|' :: (r.desc ++ '\n' :: r.seqText)), c ≠ '>' := by
  obtain ⟨ht1, ht2, _, hacc, hdesc, hlines⟩ := hc
  intro c hcmem
  simp at hcmem
  rcases hcmem with rfl | rfl | rfl | hin | rfl | hin | rfl | hin
  · exact ht1
  · exact ht2
  · decide
  · exact (hacc c hin).2.2
  · decide
  · exact (hdesc c hin).2
  · decide
  · exact seqText_no_gt r hlines c hin

theorem matchEntryAt_bad_header (r : Record) (hc : r.cand)
    (hbad : ¬ (r.goodB = true)) (restbuf : List Char) :
    matchEntryAt (r.render ++ restbuf) = none := by
  obtain ⟨ht1, ht2, hne, hacc, hdesc, hlines⟩ := hc
  have hshape : r.render ++ restbuf = '>' :: r.t1 :: r.t2 :: '|' ::
      (r.acc ++ '|' :: (r.desc ++ '\n' :: (r.seqText ++ restbuf))) := by
    rw [render_cons_shape]
    simp
  rw [hshape, matchEntryAt_eq]
  unfold Record.goodB at hbad
  rw [Bool.and_eq_true] at hbad
  by_cases htag : validTag r.t1 r.t2 = true
  · have hnall : ¬ (r.acc.all isWordChar = true) := fun hall => hbad ⟨htag, hall⟩
    have hd : r.acc.dropWhile isWordChar ≠ [] := by
      intro hnil
      apply hnall
      rw [List.all_eq_true]
      exact List.dropWhile_eq_nil_iff.mp hnil
    cases hdw : r.acc.dropWhile isWordChar with
    | nil => exact absurd hdw hd
    | cons c d' =>
      have hcw : isWordChar c = false := dropWhile_head_false _ _ _ _ hdw
      have hcmem : c ∈ r.acc := (List.dropWhile_sublist isWordChar).subset (by rw [hdw]; simp)
      have hcp : c ≠ '|' := (hacc c hcmem).2.1
      have hsplitacc : r.acc = r.acc.takeWhile isWordChar ++ c :: d' := by
        conv_lhs => rw [← List.takeWhile_append_dropWhile (p := isWordChar) (l := r.acc)]
        rw [hdw]
      have hTW : (r.acc ++ '|' :: (r.desc ++ '\n' :: (r.seqText ++ restbuf))).takeWhile
          isWordChar = r.acc.takeWhile isWordChar := by
        conv_lhs => rw [hsplitacc]
        rw [List.append_assoc, List.cons_append]
        exact takeWhile_stop _ c _ (fun x hx => List.mem_takeWhile_imp hx) hcw
      have hDW : (r.acc ++ '|' :: (r.desc ++ '\n' :: (r.seqText ++ restbuf))).dropWhile
          isWordChar = c :: (d' ++ '|' :: (r.desc ++ '\n' :: (r.seqText ++ restbuf))) := by
        conv_lhs => rw [hsplitacc]
        rw [List.append_assoc, List.cons_append]
        exact dropWhile_stop _ c _ (fun x hx => List.mem_takeWhile_imp hx) hcw
      rw [if_pos (by simp [htag]), hTW, hDW]
      cases hemp : (r.acc.takeWhile isWordChar).isEmpty with
      | true => rw [if_pos rfl]
      | false =>
        rw [if_neg (by simp)]
        dsimp only
        rw [if_neg hcp]
  · rw [Bool.not_eq_true] at htag
    rw [if_neg (by simp [htag])]

theorem render_length_eq (r : Record) : r.render.length
    = (r.t1 :: r.t2 :: '|' :: (r.acc ++ '|' :: (r.desc ++ '\n' :: r.seqText))).length + 1 := by
  rw [render_cons_shape]
  rfl

theorem scanFrom_skip_record (r : Record) (hc : r.cand) (hbad : ¬ (r.goodB = true))
    (restbuf : List Char) (pos : Nat) :
    scanFrom (r.render ++ restbuf) pos = scanFrom restbuf (pos + r.render.length) := by
  apply scanFrom_skip
  intro i hi
  cases i with
  | zero => simpa using matchEntryAt_bad_header r hc hbad restbuf
  | succ j =>
    rw [render_cons_shape, List.drop_succ_cons]
    apply matchEntryAt_none_of_no_gt
    · intro c hcmem
      exact render_body_no_gt r hc c (List.mem_of_mem_drop hcmem)
    · intro hnil
      rw [List.drop_eq_nil_iff] at hnil
      rw [render_length_eq] at hi
      omega

theorem seqText_seqChar (r : Record)
    (hlines : ∀ l ∈ r.seqLines, ∀ c ∈ l, isSeqLineChar c = true) :
    ∀ c ∈ r.seqText, isSeqChar c = true := by
  intro c hc
  rw [Record.seqText, List.mem_flatten] at hc
  obtain ⟨l', hl', hcl'⟩ := hc
  obtain ⟨l, hl, rfl⟩ := List.mem_map.mp hl'
  rcases List.mem_append.mp hcl' with hcl | hnl
  · exact isSeqLineChar_isSeqChar c (hlines l hl c hcl)
  · rw [List.mem_singleton] at hnl
    subst hnl
    decide

theorem cand_good_toMatch_ok (r : Record) (hc : r.cand) (hg : r.goodB = true) :
    r.toMatch.ok := by
  obtain ⟨_, _, hne, _, hdesc, hlines⟩ := hc
  rw [Record.goodB, Bool.and_eq_true] at hg
  refine ⟨hg.1, hne, ?_, fun c hc2 => (hdesc c hc2).1, seqText_seqChar r hlines⟩
  intro c hcmem
  exact List.all_eq_true.mp hg.2 c hcmem

theorem scanFrom_cand (rs : List Record) : ∀ pos : Nat, (∀ r ∈ rs, r.cand) →
    (scanFrom (renderArchive rs) pos).map Prod.fst
      = (rs.filter (fun r => r.goodB)).map Record.acc := by
  induction rs with
  | nil =>
    intro pos _
    rfl
  | cons r rest ih =>
    intro pos h
    have hr := h r (by simp)
    rw [renderArchive_cons]
    by_cases hg : r.goodB = true
    · have hok := cand_good_toMatch_ok r hr hg
      have hm : matchEntryAt (r.render ++ renderArchive rest) = some r.toMatch := by
        have h2 := matchEntryAt_text r.toMatch hok (renderArchive rest)
        rw [renderArchive_takeWhile] at h2
        simpa [Record.render] using h2
      rw [scanFrom_match _ _ pos hm]
      have hlen : r.toMatch.len = r.render.length := (EMatch.text_length r.toMatch).symm
      have hdrop : (r.render ++ renderArchive rest).drop r.toMatch.len = renderArchive rest :=
        List.drop_left' hlen.symm
      rw [List.map_cons, hdrop, ih _ (fun x hx => h x (List.mem_cons_of_mem _ hx))]
      rw [List.filter_cons_of_pos hg]
      rfl
    · rw [scanFrom_skip_record r hr hg _ pos]
      rw [ih _ (fun x hx => h x (List.mem_cons_of_mem _ hx))]
      rw [List.filter_cons_of_neg hg]

/-- C9 (counterexample): a well-delimited header whose accession token
contains the non-word, non-whitespace character `|` is not silently skipped
as the claim states: the scan indexes that header (under the word-character
prefix of its accession), so the index is nonempty. -/
theorem c9_counterexample :
    (¬ ∀ c ∈ "AB|CD".toList, isWordChar c = true) ∧
    (∀ c ∈ "AB|CD".toList, isSpace c = false) ∧
    scanFrom (Record.render ⟨'s', 'p', "AB|CD".toList, "d".toList, ["SEQ".toList]⟩) 0 ≠ [] ∧
    (scanFrom (Record.render ⟨'s', 'p', "AB|CD".toList, "d".toList, ["SEQ".toList]⟩) 0).map
      Prod.fst = ["AB".toList] := by
  refine ⟨by decide, by decide, by decide, by decide⟩

/-- C9 (amended): restricted to candidate records — tag characters other than
`>`, nonempty accession of non-whitespace characters excluding `|` and `>`,
description free of newline and `>`, sequence lines of letters and
non-newline whitespace — the scan indexes a record exactly when its tag is
one of sp, sr, tp, tr and its accession consists of word characters only;
every other record is silently skipped. -/
theorem c9_amended (rs : List Record) (hc : ∀ r ∈ rs, r.cand) :
    (scanFrom (renderArchive rs) 0).map Prod.fst
      = (rs.filter (fun r => r.goodB)).map Record.acc :=
  scanFrom_cand rs 0 hc

theorem c9_witness :
    (∀ r ∈ ([⟨'s', 'p', "P1".toList, "d1".toList, ["AA".toList]⟩,
        ⟨'x', 'x', "Q2".toList, "d2".toList, ["CC".toList]⟩,
        ⟨'s', 'p', "A-B".toList, "d3".toList, ["GG".toList]⟩,
        ⟨'t', 'r', "R3".toList, "d4".toList, []⟩] : List Record), r.cand) ∧
    (scanFrom (renderArchive [⟨'s', 'p', "P1".toList, "d1".toList, ["AA".toList]⟩,
        ⟨'x', 'x', "Q2".toList, "d2".toList, ["CC".toList]⟩,
        ⟨'s', 'p', "A-B".toList, "d3".toList, ["GG".toList]⟩,
        ⟨'t', 'r', "R3".toList, "d4".toList, []⟩]) 0).map Prod.fst
      = ["P1".toList, "R3".toList] := by
  refine ⟨by decide, ?_⟩
  rw [c9_amended _ (by decide)]
  decide

/-! ### Round-trip helpers -/

theorem dictKeys_dictInsert (d : Dict) (k : List Char) (v : Span) :
    dictKeys (dictInsert d k v)
      = if d.any (fun p => p.1 = k) = true then dictKeys d else dictKeys d ++ [k] := by
  unfold dictInsert dictKeys
  split
  · rw [List.map_map]
    apply List.map_congr_left
    intro p _
    by_cases hp : p.1 = k
    · simp [hp]
    · simp [hp]
  · simp

theorem dictKeys_foldl_nodup (l : List (List Char × Span)) :
    ∀ d : Dict, (dictKeys d).Nodup →
      (dictKeys (l.foldl (fun d p => dictInsert d p.1 p.2) d)).Nodup := by
  induction l with
  | nil =>
    intro d h
    exact h
  | cons p t ih =>
    intro d h
    show (dictKeys (List.foldl _ (dictInsert d p.1 p.2) t)).Nodup
    apply ih
    rw [dictKeys_dictInsert]
    split
    · exact h
    · rename_i hany
      rw [List.nodup_append]
      refine ⟨h, by simp, ?_⟩
      intro a ha hb
      rw [List.mem_singleton] at hb
      subst hb
      obtain ⟨q, hq, hqk⟩ := List.mem_map.mp ha
      rw [Bool.not_eq_true, List.any_eq_false] at hany
      have hnq := hany q hq
      simp at hnq
      exact hnq hqk

theorem read_keys_nodup (contents : List Char) :
    (dictKeys (FastaFile.read contents).id_offsets).Nodup := by
  show (dictKeys ((scanFrom contents 0).foldl (fun d p => dictInsert d p.1 p.2) [])).Nodup
  exact dictKeys_foldl_nodup _ [] (by simp [dictKeys])

theorem joinNl_nl (cs : List (List Char)) (hne : cs ≠ []) :
    joinNl cs ++ ['\n'] = (cs.map (fun l => l ++ ['\n'])).flatten := by
  induction cs with
  | nil => exact absurd rfl hne
  | cons c cs2 ih =>
    cases cs2 with
    | nil => simp [joinNl]
    | cons c2 cs3 =>
      rw [joinNl, List.map_cons, List.flatten_cons, ← ih (by simp)]
      simp

theorem stripWs_eq_self_mem (s : List Char) (h : stripWs s = s) :
    ∀ c ∈ s, isSpace c = false := by
  intro c hc
  have := List.filter_eq_self.mp h c hc
  simpa using this

theorem seqChar_nospace_lineChar (c : Char) (h1 : isSeqChar c = true)
    (h2 : isSpace c = false) : isSeqLineChar c = true := by
  simp [isSeqChar] at h1
  rcases h1 with h1 | h1
  · simp [isSeqLineChar, h1]
  · rw [h1] at h2
    cases h2

theorem fmtLines_spec (seqS : List Char) (w : Option Int)
    (hw : w = none ∨ ∃ k : Int, 1 ≤ k ∧ w = some k) (hstr : stripWs seqS = seqS) :
    ∃ fmtd, format_sequence seqS w = .ok fmtd ∧
      ((fmtLines seqS w).map (fun l => l ++ ['\n'])).flatten = fmtd ++ ['\n'] ∧
      stripWs fmtd = seqS := by
  rcases hw with rfl | ⟨k, hk, rfl⟩
  · refine ⟨stripWs seqS, rfl, ?_, ?_⟩
    · rw [fmtLines, hstr]
      simp
    · rw [stripWs_stripWs, hstr]
  · have hk1 : 1 ≤ k.toNat := by omega
    refine ⟨joinNl (chunks k.toNat (stripWs seqS)), format_sequence_pos seqS k hk, ?_, ?_⟩
    · rw [fmtLines]
      cases hcs : chunks k.toNat (stripWs seqS) with
      | nil => simp [joinNl]
      | cons c0 cs0 =>
        rw [← hcs]
        rw [joinNl_nl _ (by rw [hcs]; simp)]
        rw [hcs]
    · have hmem : ∀ l ∈ chunks k.toNat (stripWs seqS), ∀ c ∈ l, isSpace c = false := by
        intro l hl c hc
        have hin := (chunks_mem k.toNat hk1 (stripWs seqS) l hl).2.2 c hc
        exact (stripWs_mem seqS c hin).2
      rw [stripWs_joinNl _ hmem, chunks_flatten k.toNat hk1, hstr]

theorem recordOfEntry_acc (f : FastaFile) (w : Option Int) (p : List Char × Span) :
    (recordOfEntry f w p).acc = p.1 := by
  unfold recordOfEntry
  cases f.get_entry_at p.1 p.2.1 p.2.2 with
  | ok ds =>
    obtain ⟨d, s⟩ := ds
    rfl
  | error e => rfl

theorem recordOfEntry_eq (f : FastaFile) (w : Option Int) (p : List Char × Span)
    (desc seqS : List Char) (h : f.get_entry_at p.1 p.2.1 p.2.2 = .ok (desc, seqS)) :
    recordOfEntry f w p = ⟨'s', 'p', p.1, desc, fmtLines seqS w⟩ := by
  unfold recordOfEntry
  rw [h]

theorem entryRecordText_eq (f : FastaFile) (w : Option Int) (p : List Char × Span)
    (desc seqS fmtd : List Char) (h : f.get_entry_at p.1 p.2.1 p.2.2 = .ok (desc, seqS))
    (hf : format_sequence seqS w = .ok fmtd) :
    entryRecordText f w p
      = '>' :: 's' :: 'p' :: '|' :: (p.1 ++ '|' :: (desc ++ '\n' :: (fmtd ++ ['\n']))) := by
  unfold entryRecordText
  rw [h]
  dsimp only
  rw [hf]

theorem roundtrip_record (contents : List Char) (w : Option Int)
    (hw : w = none ∨ ∃ k : Int, 1 ≤ k ∧ w = some k)
    (p : List Char × Span) (hp : p ∈ (FastaFile.read contents).id_offsets) :
    ∃ desc seqS, (FastaFile.read contents).get_entry_at p.1 p.2.1 p.2.2 = .ok (desc, seqS) ∧
      (recordOfEntry (FastaFile.read contents) w p).wf ∧
      entryRecordText (FastaFile.read contents) w p
        = (recordOfEntry (FastaFile.read contents) w p).render ∧
      stripWs (recordOfEntry (FastaFile.read contents) w p).seqText = seqS := by
  obtain ⟨acc, b, e⟩ := p
  obtain ⟨m, hok, hacc, _, hentry⟩ := extraction_ok contents acc b e hp
  obtain ⟨htag, hne, haccw, hdesc, hseq⟩ := hok
  have hstr : stripWs (stripWs m.seq) = stripWs m.seq := stripWs_stripWs m.seq
  obtain ⟨fmtd, hfmt, hflat, hfs⟩ := fmtLines_spec (stripWs m.seq) w hw hstr
  refine ⟨m.desc, stripWs m.seq, hentry, ?_, ?_, ?_⟩
  · rw [recordOfEntry_eq _ w _ _ _ hentry]
    refine ⟨rfl, by simpa [hacc] using hne, ?_, hdesc, ?_⟩
    · intro c hc
      simp only at hc
      apply haccw
      rw [hacc]
      exact hc
    · intro l hl c hc
      simp only at hl
      have hcs : c ∈ stripWs m.seq ∨ l = [] := by
        rcases hw with rfl | ⟨k, hk, rfl⟩
        · rw [fmtLines] at hl
          rw [List.mem_singleton] at hl
          subst hl
          exact .inl hc
        · rw [fmtLines] at hl
          rcases hcsx : chunks k.toNat (stripWs (stripWs m.seq)) with _ | ⟨c0, cs0⟩
          · rw [hcsx] at hl
            rw [List.mem_singleton] at hl
            subst hl
            simp at hc
          · rw [hcsx] at hl
            left
            have hk1 : 1 ≤ k.toNat := by omega
            have hin := (chunks_mem k.toNat hk1 (stripWs (stripWs m.seq)) l
              (by rw [hcsx]; exact hl)).2.2 c hc
            rw [hstr] at hin
            exact hin
      rcases hcs with hcs | rfl
      · obtain ⟨hin, hns⟩ := stripWs_mem m.seq c hcs
        exact seqChar_nospace_lineChar c (hseq c hin) hns
      · simp at hc
  · rw [entryRecordText_eq _ w _ _ _ _ hentry hfmt]
    rw [recordOfEntry_eq _ w _ _ _ hentry]
    rw [render_cons_shape]
    simp only [Record.seqText]
    rw [hflat]
  · rw [recordOfEntry_eq _ w _ _ _ hentry]
    simp only [Record.seqText]
    rw [hflat, stripWs_append]
    rw [hfs]
    simp [stripWs]
    decide

/-- C6: writing every indexed entry back out — header `>sp|accession|description`
followed by the sequence, unwrapped or folded at any fixed width `w ≥ 1`, each
newline-terminated — and re-indexing the resulting buffer yields the same
accessions (in the same order), and for every indexed accession the same
whitespace-stripped sequence as the original index. -/
theorem c6_round_trip (contents : List Char) (w : Option Int)
    (hw : w = none ∨ ∃ k : Int, 1 ≤ k ∧ w = some k) :
    dictKeys (FastaFile.read (rewriteBuffer (FastaFile.read contents) w)).id_offsets
      = dictKeys (FastaFile.read contents).id_offsets ∧
    ∀ acc : List Char, (FastaFile.read contents).id_exists acc = true →
      (FastaFile.read (rewriteBuffer (FastaFile.read contents) w)).get_sequence acc
        = (FastaFile.read contents).get_sequence acc := by
  have hspec : ∀ p ∈ (FastaFile.read contents).id_offsets,
      (recordOfEntry (FastaFile.read contents) w p).wf ∧
      entryRecordText (FastaFile.read contents) w p
        = (recordOfEntry (FastaFile.read contents) w p).render := by
    intro p hp
    obtain ⟨d, s, _, hwf, hrend, _⟩ := roundtrip_record contents w hw p hp
    exact ⟨hwf, hrend⟩
  have hbuf : rewriteBuffer (FastaFile.read contents) w
      = renderArchive ((FastaFile.read contents).id_offsets.map
          (recordOfEntry (FastaFile.read contents) w)) := by
    unfold rewriteBuffer renderArchive
    rw [List.map_map]
    congr 1
    apply List.map_congr_left
    intro p hp
    exact (hspec p hp).2
  have haccs : (((FastaFile.read contents).id_offsets.map
      (recordOfEntry (FastaFile.read contents) w)).map Record.acc)
      = dictKeys (FastaFile.read contents).id_offsets := by
    unfold dictKeys
    rw [List.map_map]
    apply List.map_congr_left
    intro p _
    exact recordOfEntry_acc _ w p
  have hnodup : ((((FastaFile.read contents).id_offsets.map
      (recordOfEntry (FastaFile.read contents) w)).map Record.acc)).Nodup := by
    rw [haccs]
    exact read_keys_nodup contents
  have hwfall : ∀ r ∈ (FastaFile.read contents).id_offsets.map
      (recordOfEntry (FastaFile.read contents) w), r.wf := by
    intro r hr
    obtain ⟨p, hp, rfl⟩ := List.mem_map.mp hr
    exact (hspec p hp).1
  have hoffs2 : (FastaFile.read (rewriteBuffer (FastaFile.read contents) w)).id_offsets
      = recSpans ((FastaFile.read contents).id_offsets.map
          (recordOfEntry (FastaFile.read contents) w)) 0 := by
    rw [hbuf]
    exact read_render_offsets _ hwfall hnodup
  constructor
  · unfold dictKeys
    rw [hoffs2, recSpans_map_fst]
    unfold dictKeys at haccs
    exact haccs
  · intro acc hex
    obtain ⟨b, e, hfind, hmem⟩ := id_exists_find _ acc hex
    obtain ⟨desc, seqS, hentry, hwfp, hrendp, hstrp⟩ :=
      roundtrip_record contents w hw (acc, b, e) hmem
    have hgetf : (FastaFile.read contents).get_entry acc = .ok (desc, seqS) := by
      unfold FastaFile.get_entry FastaFile.get_offset
      rw [if_pos hex, hfind]
      exact hentry
    have hseqf : (FastaFile.read contents).get_sequence acc = .ok seqS := by
      unfold FastaFile.get_sequence
      rw [hgetf]
    obtain ⟨D1, D2, hD⟩ := List.append_of_mem hmem
    have hkeysnd := read_keys_nodup contents
    rw [hD] at hkeysnd
    have hkeyseq : dictKeys (D1 ++ (acc, b, e) :: D2)
        = dictKeys D1 ++ acc :: dictKeys D2 := by
      simp [dictKeys]
    rw [hkeyseq] at hkeysnd
    have hnotin : acc ∉ dictKeys D2 :=
      (List.nodup_cons.mp (List.nodup_append.mp hkeysnd).2.1).1
    have hsplit : (FastaFile.read contents).id_offsets.map
        (recordOfEntry (FastaFile.read contents) w)
        = D1.map (recordOfEntry (FastaFile.read contents) w)
          ++ recordOfEntry (FastaFile.read contents) w (acc, b, e)
            :: D2.map (recordOfEntry (FastaFile.read contents) w) := by
      rw [hD]
      simp
    have hlast2 : (recordOfEntry (FastaFile.read contents) w (acc, b, e)).acc
        ∉ (D2.map (recordOfEntry (FastaFile.read contents) w)).map Record.acc := by
      rw [recordOfEntry_acc]
      intro hin
      apply hnotin
      rw [List.map_map] at hin
      obtain ⟨q, hq, hqe⟩ := List.mem_map.mp hin
      have hq1 : q.1 = acc := by
        rw [← recordOfEntry_acc (FastaFile.read contents) w q]
        exact hqe
      exact List.mem_map.mpr ⟨q, hq, hq1⟩
    have hwfall2 : ∀ x ∈ D1.map (recordOfEntry (FastaFile.read contents) w)
        ++ recordOfEntry (FastaFile.read contents) w (acc, b, e)
          :: D2.map (recordOfEntry (FastaFile.read contents) w), x.wf := by
      intro x hx
      apply hwfall
      rw [hsplit]
      exact hx
    have hres := read_render_last (D1.map (recordOfEntry (FastaFile.read contents) w))
      (recordOfEntry (FastaFile.read contents) w (acc, b, e))
      (D2.map (recordOfEntry (FastaFile.read contents) w)) hwfall2 hlast2
    have hbuf2 : rewriteBuffer (FastaFile.read contents) w
        = renderArchive (D1.map (recordOfEntry (FastaFile.read contents) w)
            ++ recordOfEntry (FastaFile.read contents) w (acc, b, e)
              :: D2.map (recordOfEntry (FastaFile.read contents) w)) := by
      rw [hbuf, hsplit]
    have haccp : (recordOfEntry (FastaFile.read contents) w (acc, b, e)).acc = acc :=
      recordOfEntry_acc _ w _
    have hres2 := hres.2
    rw [haccp] at hres2
    have hseq2 : (FastaFile.read (rewriteBuffer (FastaFile.read contents) w)).get_sequence acc
        = .ok (stripWs (recordOfEntry (FastaFile.read contents) w (acc, b, e)).seqText) := by
      unfold FastaFile.get_sequence
      rw [hbuf2, hres2]
    rw [hseq2, hseqf, hstrp]

theorem c6_witness :
    ((some 3 : Option Int) = none ∨ ∃ k : Int, 1 ≤ k ∧ (some 3 : Option Int) = some k) ∧
    dictKeys (FastaFile.read (rewriteBuffer
        (FastaFile.read ">sp|P1|d1\nAB CD\nEF\n>tr|Q2|d2\nGGGG\n".toList) (some 3))).id_offsets
      = dictKeys (FastaFile.read ">sp|P1|d1\nAB CD\nEF\n>tr|Q2|d2\nGGGG\n".toList).id_offsets ∧
    (FastaFile.read (rewriteBuffer
        (FastaFile.read ">sp|P1|d1\nAB CD\nEF\n>tr|Q2|d2\nGGGG\n".toList) (some 3))).get_sequence
        "P1".toList
      = (FastaFile.read ">sp|P1|d1\nAB CD\nEF\n>tr|Q2|d2\nGGGG\n".toList).get_sequence
        "P1".toList :=
  ⟨.inr ⟨3, by decide, rfl⟩,
    (c6_round_trip ">sp|P1|d1\nAB CD\nEF\n>tr|Q2|d2\nGGGG\n".toList (some 3)
      (.inr ⟨3, by decide, rfl⟩)).1,
    (c6_round_trip ">sp|P1|d1\nAB CD\nEF\n>tr|Q2|d2\nGGGG\n".toList (some 3)
      (.inr ⟨3, by decide, rfl⟩)).2 "P1".toList (by decide)⟩

end SubsetFasta
